import Mathlib

/-!
Shallow embedding of the EdenFS inode core (eden/fs/inodes) used to check the
natural-language specification against the source:

* materialization and overlay write ordering
  (`TreeInode::materialize`, `TreeInode::childMaterialized`,
  `TreeInode::childDematerialized`, `TreeInode::saveOverlayPostCheckout`);
* the checkout engine's per-entry processing
  (`TreeInode::canShortCircuitCheckout`, `TreeInode::computeCheckoutActions`,
  `TreeInode::processCheckoutEntry`) and the begin/end protocol of
  `EdenMount::checkout`;
* the diff engine's single-directory walk and deferred-entry error collection
  (`TreeInode::diff`, `TreeInode::computeDiff`);
* `TreeInode::readdirImpl` offset handling;
* the retry discipline of `TreeInode::removeImpl` / `TreeInode::tryRemoveChild`.

The in-memory inode tree is represented as a finite map from reversed paths
(nearest ancestor first, so the parent of `n :: p` is `p`) to per-TreeInode
state, which makes the root-ward recursion of `childMaterialized` structural.
Machine integers (inode numbers, offsets) are modelled as `Nat`; `ObjectId` is
modelled as its byte sequence (`List Nat`) so that the `getHash().size() == 0`
guard in `saveOverlayPostCheckout` is expressible.
-/

namespace Eden

/-- Content address of a source-control object (`ObjectId` in the source),
modelled as the byte sequence of the id. -/
abbrev ObjectId := List Nat

/-- The four entry types of a source-control tree entry (`TreeEntryType` in
eden/fs/model/TreeEntry.h).  `DirEntry` stores POSIX mode bits from which this
type is recovered via `treeEntryTypeFromMode`; here both sides carry the type
directly, which `modeFromTreeEntryType`/`treeEntryTypeFromMode` translate
bijectively for these four values. -/
inductive TreeEntryType where
  | TREE
  | REGULAR_FILE
  | EXECUTABLE_FILE
  | SYMLINK
deriving DecidableEq, Repr

/-- One entry of a source-control `Tree` (eden/fs/model): name, content id and
type. -/
structure TreeEntry where
  name : String
  hash : ObjectId
  ty : TreeEntryType
deriving DecidableEq, Repr

/-- A source-control tree (`Tree` in eden/fs/model): its own content id and its
entries, stored in the sorted order the checkout/diff walks rely on. -/
structure Tree where
  hash : ObjectId
  entries : List TreeEntry
deriving DecidableEq, Repr

def treeEntriesOf : Option Tree → List TreeEntry
  | some t => t.entries
  | none => []

/-- One child entry of a TreeInode (`DirEntry` in eden/fs/inodes).
`hash = none` means the entry is materialized (`isMaterialized()`); `loaded`
models `getInode() != nullptr`. -/
structure DirEntry where
  ty : TreeEntryType
  ino : Nat
  hash : Option ObjectId
  loaded : Bool
deriving DecidableEq, Repr

def DirEntry.isDirectory (e : DirEntry) : Bool := e.ty = TreeEntryType.TREE

/-- Byte-wise lexicographic order on path components, the case-sensitive
`comparePathComponent` order used by the checkout and diff walks. -/
def charsLt : List Char → List Char → Bool
  | [], [] => false
  | [], _ :: _ => true
  | _ :: _, [] => false
  | c :: cs, d :: ds =>
    if c.val < d.val then true
    else if d.val < c.val then false
    else charsLt cs ds

def nameLt (a b : String) : Bool := charsLt a.data b.data

/-- First-match association-list lookup: `entries.find(name)` on a TreeInode's
`DirContents` (a `PathMap` keyed by name) and the path-to-inode lookup of the
mount state. -/
def lookupA {κ α : Type} [DecidableEq κ] : List (κ × α) → κ → Option α
  | [], _ => none
  | (k, v) :: rest, n => if k = n then some v else lookupA rest n

/-- Replace the value stored at a key, leaving the list unchanged when the key
is absent (the source only updates entries it has just found). -/
def setA {κ α : Type} [DecidableEq κ] : List (κ × α) → κ → α → List (κ × α)
  | [], _, _ => []
  | (k, v) :: rest, n, w => if k = n then (k, w) :: rest else (k, v) :: setA rest n w

/-- Remove the entry at a key (`contents.erase(it)`). -/
def eraseA {κ α : Type} [DecidableEq κ] : List (κ × α) → κ → List (κ × α)
  | [], _ => []
  | (k, v) :: rest, n => if k = n then rest else (k, v) :: eraseA rest n

/-- Insert a new entry at its sorted position (`contents.emplace(...)` on the
name-sorted `PathMap`). -/
def insertEnt {α : Type} : List (String × α) → String → α → List (String × α)
  | [], n, w => [(n, w)]
  | (k, v) :: rest, n, w =>
    if nameLt n k then (n, w) :: (k, v) :: rest else (k, v) :: insertEnt rest n w

/-- The contents-lock protected state of one TreeInode (`TreeInodeState` in
TreeInode.h): `treeHash = none` means the directory is materialized. -/
structure TreeInodeState where
  treeHash : Option ObjectId
  entries : List (String × DirEntry)
deriving DecidableEq, Repr

/-- The loaded TreeInodes of a mount, keyed by reversed path: the root has key
`[]` and the parent of key `n :: p` is key `p`. -/
abbrev MountState := List (List String × TreeInodeState)

/-- Overlay writes performed by the materialization protocol: each
`saveOverlayDir(contents->entries)` call, tagged with the inode (identified by
its reversed path) whose directory contents are persisted. -/
inductive OverlayWrite where
  | save (path : List String) (dir : List (String × DirEntry))
deriving DecidableEq, Repr

def OverlayWrite.path : OverlayWrite → List String
  | .save p _ => p

/-- TreeInode::childMaterialized (TreeInode.cpp:807-837), acting on the parent
at reversed path `rp`: if the parent and the child entry are both already
materialized nothing happens; otherwise the child entry and the parent are
marked materialized, the parent's contents are saved to the overlay, and the
recursion continues at the parent's own parent.  The `EDEN_BUG` path (entry not
present) throws before any mutation, so it is modelled as the unchanged state.
The returned list records the overlay writes in execution order. -/
def childMaterialized : List String → MountState → String → MountState × List OverlayWrite
  | rp, st, childName =>
    match lookupA st rp with
    | none => (st, [])
    | some node =>
      match lookupA node.entries childName with
      | none => (st, [])
      | some childEntry =>
        if node.treeHash = none ∧ childEntry.hash = none then (st, [])
        else
          let entries2 := setA node.entries childName { childEntry with hash := none }
          let st2 := setA st rp ⟨none, entries2⟩
          match rp with
          | [] => (st2, [OverlayWrite.save [] entries2])
          | m :: pp =>
            let r := childMaterialized pp st2 m
            (r.1, OverlayWrite.save (m :: pp) entries2 :: r.2)

/-- TreeInode::materialize (TreeInode.cpp:747-802) for the inode at reversed
path `rp`: return if already materialized; otherwise clear `treeHash`, save the
contents to the overlay (this write happens before anything else), and notify
the parent through `childMaterialized`. -/
def materialize (st : MountState) (rp : List String) : MountState × List OverlayWrite :=
  match lookupA st rp with
  | none => (st, [])
  | some node =>
    if node.treeHash = none then (st, [])
    else
      let st2 := setA st rp ⟨none, node.entries⟩
      match rp with
      | [] => (st2, [OverlayWrite.save [] node.entries])
      | m :: pp =>
        let r := childMaterialized pp st2 m
        (r.1, OverlayWrite.save (m :: pp) node.entries :: r.2)

/-- TreeInode::childDematerialized (TreeInode.cpp:839-881): if the child entry
already holds exactly `childScmHash` nothing happens; otherwise the child entry
is updated to that hash, the parent itself is marked materialized and saved,
and the parent's parent is asked to materialize. -/
def childDematerialized (rp : List String) (st : MountState) (childName : String)
    (childScmHash : ObjectId) : MountState × List OverlayWrite :=
  match lookupA st rp with
  | none => (st, [])
  | some node =>
    match lookupA node.entries childName with
    | none => (st, [])
    | some childEntry =>
      if childEntry.hash = some childScmHash then (st, [])
      else
        let entries2 := setA node.entries childName { childEntry with hash := some childScmHash }
        let st2 := setA st rp ⟨none, entries2⟩
        match rp with
        | [] => (st2, [OverlayWrite.save [] entries2])
        | m :: pp =>
          let r := childMaterialized pp st2 m
          (r.1, OverlayWrite.save (m :: pp) entries2 :: r.2)

/-- The entry loop of the `tryToDematerialize` lambda in
`TreeInode::saveOverlayPostCheckout` (TreeInode.cpp:3465-3489): walking the
source-control entries and the inode entries in parallel, every inode entry
must be unmaterialized and carry exactly the source-control entry's id.  Names
and types are not compared. -/
def demCheckEntries : List TreeEntry → List (String × DirEntry) → Bool
  | [], [] => true
  | se :: scmRest, (_, de) :: inodeRest =>
    match de.hash with
    | none => false
    | some h => decide (h = se.hash) && demCheckEntries scmRest inodeRest
  | _, _ => false

/-- The `tryToDematerialize` lambda of `TreeInode::saveOverlayPostCheckout`
(TreeInode.cpp:3451-3508): no tree, differing entry count, any materialized or
id-mismatched child, or an empty destination hash all force `none`
(materialized); otherwise the destination tree's hash is adopted. -/
def tryToDematerialize (tree : Option Tree) (entries : List (String × DirEntry)) :
    Option ObjectId :=
  match tree with
  | none => none
  | some t =>
    if t.entries.length = entries.length then
      if demCheckEntries t.entries entries then
        if t.hash = [] then none else some t.hash
      else none
    else none

/-- TreeInode::saveOverlayPostCheckout (TreeInode.cpp:3433-3556): on a dry run
nothing happens; otherwise the node's `treeHash` is recomputed by
`tryToDematerialize`, the contents are saved to the overlay either way, and if
the hash changed the parent is told via `childMaterialized` or
`childDematerialized`. -/
def saveOverlayPostCheckout (isDryRun : Bool) (tree : Option Tree) (st : MountState)
    (rp : List String) : MountState × List OverlayWrite :=
  if isDryRun then (st, [])
  else
    match lookupA st rp with
    | none => (st, [])
    | some node =>
      let newHash := tryToDematerialize tree node.entries
      let st2 := setA st rp ⟨newHash, node.entries⟩
      let ev := OverlayWrite.save rp node.entries
      if node.treeHash = newHash then (st2, [ev])
      else
        match rp, newHash, tree with
        | m :: pp, none, _ =>
          let r := childMaterialized pp st2 m
          (r.1, ev :: r.2)
        | m :: pp, some _, some t =>
          let r := childDematerialized pp st2 m t.hash
          (r.1, ev :: r.2)
        | _, _, _ => (st2, [ev])

/-- Upward closure of materialization, per node: a TreeInode with a
materialized child entry is itself materialized. -/
def upwardClosedB (st : MountState) : Bool :=
  st.all fun kv => !(kv.2.entries.any fun e => e.2.hash.isNone) || kv.2.treeHash.isNone

/-- Consistency between a child inode's own state and its entry in the parent:
a loaded child whose `treeHash` is cleared is recorded as materialized in its
parent's `DirEntry`. -/
def entrySyncB (st : MountState) : Bool :=
  st.all fun kv => kv.2.entries.all fun e =>
    match lookupA st (e.1 :: kv.1) with
    | none => true
    | some child => child.treeHash.isSome || e.2.hash.isNone

/-- `entrySyncB` weakened at the single parent-to-child link `(rp, n)`: during
the root-ward `childMaterialized` recursion exactly this link may be
temporarily out of sync. -/
def entrySyncExceptB (st : MountState) (rp : List String) (n : String) : Bool :=
  st.all fun kv => kv.2.entries.all fun e =>
    decide (kv.1 = rp ∧ e.1 = n) ||
    (match lookupA st (e.1 :: kv.1) with
     | none => true
     | some child => child.treeHash.isSome || e.2.hash.isNone)

/-- Tree-shape coherence of a mount state: every non-root node's parent exists
and carries an entry under the node's name. -/
def coherentB (st : MountState) : Bool :=
  st.all fun kv =>
    match kv.1 with
    | [] => true
    | n :: pp =>
      match lookupA st pp with
      | none => false
      | some parent => (lookupA parent.entries n).isSome

/-- Well-formedness of the finite-map representation: node keys are unique and
entry names within each node are unique (both hold for the source's
`InodeMap`/`PathMap` representations). -/
def wfB (st : MountState) : Bool :=
  decide ((st.map Prod.fst).Nodup) &&
    st.all fun kv => decide ((kv.2.entries.map Prod.fst).Nodup)

/-- Checkout modes (`CheckoutMode` in eden/fs/inodes/CheckoutContext.h, used
throughout TreeInode.cpp). -/
inductive CheckoutMode where
  | DRY_RUN
  | NORMAL
  | FORCE
deriving DecidableEq, Repr

/-- Conflict taxonomy reported by checkout (`ConflictType`). -/
inductive ConflictType where
  | ERROR
  | MODIFIED_REMOVED
  | UNTRACKED_ADDED
  | REMOVED_MODIFIED
  | MISSING_REMOVED
  | MODIFIED_MODIFIED
  | DIRECTORY_NOT_EMPTY
deriving DecidableEq, Repr

/-- Modelled from the spec: the parts of `CheckoutContext`
(CheckoutContext.h/.cpp are not under src/, only their use sites in
TreeInode.cpp and EdenMount.cpp are): the context carries the mode, with
`isDryRun()`/`forceUpdate()` testing it, and `addConflict`/`addError` append
to the returned conflict and error lists. -/
structure CheckoutCtx where
  mode : CheckoutMode
  conflicts : List (ConflictType × String)
  errors : List String
deriving DecidableEq, Repr

def CheckoutCtx.isDryRun (c : CheckoutCtx) : Bool := c.mode = CheckoutMode.DRY_RUN

def CheckoutCtx.forceUpdate (c : CheckoutCtx) : Bool := c.mode = CheckoutMode.FORCE

def CheckoutCtx.addConflict (c : CheckoutCtx) (t : ConflictType) (name : String) : CheckoutCtx :=
  { c with conflicts := c.conflicts ++ [(t, name)] }

def CheckoutCtx.addError (c : CheckoutCtx) (name : String) : CheckoutCtx :=
  { c with errors := c.errors ++ [name] }

/-- External conditions observed by `processCheckoutEntry`: whether the
InodeMap remembers an inode number (`isInodeRemembered`), whether blob ids are
bijective with contents (`hasBijectiveBlobIds`), and whether the channel
invalidation calls succeed (`invalidateChannelEntryCache`). -/
structure CheckoutEnv where
  remembered : Nat → Bool
  bijectiveBlobIds : Bool
  invalidationOk : Bool

/-- TreeInode::canShortCircuitCheckout (TreeInode.cpp:2785-2828). -/
def canShortCircuitCheckout (mode : CheckoutMode) (treeHash : ObjectId)
    (fromTree toTree : Option Tree) : Bool :=
  if mode = CheckoutMode.DRY_RUN then
    match fromTree with
    | some f => decide (treeHash = f.hash)
    | none =>
      match toTree with
      | none => true
      | some t => decide (treeHash = t.hash)
  else
    match toTree with
    | none => false
    | some t =>
      if decide (treeHash = t.hash) then
        match fromTree with
        | none => true
        | some f => decide (treeHash = f.hash)
      else false

/-- The identical-entry test at the top of `processCheckoutEntry`
(TreeInode.cpp:2951-2953). -/
def sameScmEntry : Option TreeEntry → Option TreeEntry → Bool
  | some o, some n => decide (o.ty = n.ty) && decide (o.hash = n.hash)
  | _, _ => false

def checkoutEntryName : Option TreeEntry → Option TreeEntry → String
  | some o, _ => o.name
  | none, some n => n.name
  | none, none => ""

/-- Result of processing one checkout entry: the updated context, directory
contents and inode-number allocator, an optional `CheckoutAction` (recorded as
the pair of source-control entries it was created from), and the
`wasDirectoryListModified` out-parameter. -/
structure EntryStep where
  ctx : CheckoutCtx
  entries : List (String × DirEntry)
  nextIno : Nat
  action : Option (Option TreeEntry × Option TreeEntry)
  dirListModified : Bool
deriving Repr

/-- The tail of `processCheckoutEntry` that applies a change for an unloaded
entry (TreeInode.cpp:3091-3133): bail on a dry run, invalidate (recording an
error and stopping on failure), erase the old entry and, when the destination
has one, insert the new entry with a freshly allocated inode number. -/
def applyCheckoutChange (env : CheckoutEnv) (ctx : CheckoutCtx)
    (entries : List (String × DirEntry)) (nextIno : Nat) (newScmEntry : Option TreeEntry)
    (name : String) : EntryStep :=
  if ctx.isDryRun then ⟨ctx, entries, nextIno, none, false⟩
  else if !env.invalidationOk then ⟨ctx.addError name, entries, nextIno, none, false⟩
  else
    let entries1 := eraseA entries name
    match newScmEntry with
    | some n =>
      ⟨ctx, insertEnt entries1 n.name ⟨n.ty, nextIno, some n.hash, false⟩, nextIno + 1,
        none, true⟩
    | none => ⟨ctx, entries1, nextIno, none, true⟩

/-- The conflict block of `processCheckoutEntry` (TreeInode.cpp:3074-3089):
a directory must be loaded to enumerate conflicts (a `CheckoutAction` is
returned instead); otherwise the conflict is recorded and, unless this is a
force update, the entry is left alone. -/
def checkoutEntryConflict (env : CheckoutEnv) (ctx : CheckoutCtx)
    (entries : List (String × DirEntry)) (nextIno : Nat)
    (oldScmEntry newScmEntry : Option TreeEntry) (name : String) (entry : DirEntry)
    (ct : ConflictType) : EntryStep :=
  if entry.isDirectory then ⟨ctx, entries, nextIno, some (oldScmEntry, newScmEntry), false⟩
  else
    let ctx1 := ctx.addConflict ct name
    if !ctx.forceUpdate then ⟨ctx1, entries, nextIno, none, false⟩
    else applyCheckoutChange env ctx1 entries nextIno newScmEntry name

/-- TreeInode::processCheckoutEntry (TreeInode.cpp:2931-3140) for one pair of
source-control entries.  The `kPreciseInodeNumberMemory` disjunct is compiled
out (`constexpr bool ... = false`), so only `isMaterialized()` and
`isInodeRemembered()` force a load of an unloaded entry. -/
def processCheckoutEntry (env : CheckoutEnv) (ctx : CheckoutCtx)
    (entries : List (String × DirEntry)) (nextIno : Nat)
    (oldScmEntry newScmEntry : Option TreeEntry) : EntryStep :=
  if !ctx.forceUpdate && sameScmEntry oldScmEntry newScmEntry then
    ⟨ctx, entries, nextIno, none, false⟩
  else
    let name := checkoutEntryName oldScmEntry newScmEntry
    match lookupA entries name with
    | none =>
      match oldScmEntry, newScmEntry with
      | none, none => ⟨ctx, entries, nextIno, none, false⟩
      | none, some n =>
        if ctx.isDryRun then ⟨ctx, entries, nextIno, none, false⟩
        else if env.invalidationOk then
          ⟨ctx, insertEnt entries n.name ⟨n.ty, nextIno, some n.hash, false⟩, nextIno + 1,
            none, true⟩
        else ⟨ctx.addError name, entries, nextIno, none, true⟩
      | some o, none =>
        ⟨ctx.addConflict ConflictType.MISSING_REMOVED o.name, entries, nextIno, none, false⟩
      | some o, some n =>
        let ctx1 := ctx.addConflict ConflictType.REMOVED_MODIFIED o.name
        if ctx.forceUpdate then
          if env.invalidationOk then
            ⟨ctx1, insertEnt entries n.name ⟨n.ty, nextIno, some n.hash, false⟩, nextIno + 1,
              none, true⟩
          else ⟨ctx1.addError name, entries, nextIno, none, true⟩
        else ⟨ctx1, entries, nextIno, none, false⟩
    | some entry =>
      if entry.loaded then ⟨ctx, entries, nextIno, some (oldScmEntry, newScmEntry), false⟩
      else if entry.hash.isNone || env.remembered entry.ino then
        ⟨ctx, entries, nextIno, some (oldScmEntry, newScmEntry), false⟩
      else
        match oldScmEntry with
        | none =>
          checkoutEntryConflict env ctx entries nextIno oldScmEntry newScmEntry name entry
            ConflictType.UNTRACKED_ADDED
        | some o =>
          if entry.hash = some o.hash then
            applyCheckoutChange env ctx entries nextIno newScmEntry name
          else if env.bijectiveBlobIds then
            checkoutEntryConflict env ctx entries nextIno oldScmEntry newScmEntry name entry
              ConflictType.MODIFIED_MODIFIED
          else ⟨ctx, entries, nextIno, some (oldScmEntry, newScmEntry), false⟩

/-- Outcome of `checkoutUpdateEntry` as seen by its caller: the
`InvalidationRequired` return value, or delegation to the child TreeInode's
own checkout for a directory-to-directory update. -/
inductive UpdateOutcome where
  | recursed
  | invalidate
  | noInvalidate
deriving DecidableEq, Repr

/-- Result of applying one deferred `CheckoutAction` to the parent TreeInode:
the updated context, the parent's directory contents and inode-number
allocator, and the outcome. -/
structure UpdateStep where
  ctx : CheckoutCtx
  entries : List (String × DirEntry)
  nextIno : Nat
  outcome : UpdateOutcome
deriving Repr

/-- TreeInode::checkoutUpdateEntry (TreeInode.cpp:3151-3346), the application
of a deferred `CheckoutAction` for the loaded child `name` of this TreeInode.
`isTree` says whether the loaded inode is a TreeInode, `newTree` whether the
destination entry is a tree, `removeOk` whether `tryRemoveChild` succeeds
after the recursive unlink.  The mount is case-sensitive, so the
directory-to-directory fallthrough for a casing change does not arise.
For a file: a dry run does nothing (TreeInode.cpp:3162-3164); a missing
entry is the EDEN_BUG path, modelled as no mutation; a failed channel
invalidation records an error and stops; otherwise the old entry is unlinked
and erased, and the destination entry, when present, is inserted under a
freshly allocated inode number (TreeInode.cpp:3196-3207).  Directory to
directory: delegate to the child TreeInode's own checkout, the parent's
contents untouched (TreeInode.cpp:3218-3241).  Otherwise the child directory
was recursively checked out against a null tree, and in the continuation
(TreeInode.cpp:3247-3344): a dry run stops (3251-3254); a failed invalidation
records `DIRECTORY_NOT_EMPTY` and applies nothing (3276-3285); a failed
`tryRemoveChild` records `DIRECTORY_NOT_EMPTY` but falls through with the old
entry still in place (3286-3297), so a destination entry's emplace can find
the name taken and records an `EEXIST` error instead of inserting
(3314-3340); the inode number is allocated with the emplace attempt either
way. -/
def checkoutUpdateEntry (env : CheckoutEnv) (ctx : CheckoutCtx)
    (entries : List (String × DirEntry)) (nextIno : Nat) (name : String)
    (isTree newTree removeOk : Bool) (newScmEntry : Option TreeEntry) : UpdateStep :=
  if !isTree then
    if ctx.isDryRun then ⟨ctx, entries, nextIno, UpdateOutcome.noInvalidate⟩
    else
      match lookupA entries name with
      | none => ⟨ctx, entries, nextIno, UpdateOutcome.noInvalidate⟩
      | some _ =>
        if !env.invalidationOk then
          ⟨ctx.addError name, entries, nextIno, UpdateOutcome.noInvalidate⟩
        else
          let entries1 := eraseA entries name
          match newScmEntry with
          | none => ⟨ctx, entries1, nextIno, UpdateOutcome.invalidate⟩
          | some n =>
            ⟨ctx, insertEnt entries1 n.name ⟨n.ty, nextIno, some n.hash, false⟩,
              nextIno + 1, UpdateOutcome.invalidate⟩
  else if newTree then ⟨ctx, entries, nextIno, UpdateOutcome.recursed⟩
  else if ctx.isDryRun then ⟨ctx, entries, nextIno, UpdateOutcome.noInvalidate⟩
  else if !env.invalidationOk then
    ⟨ctx.addConflict ConflictType.DIRECTORY_NOT_EMPTY name, entries, nextIno,
      UpdateOutcome.noInvalidate⟩
  else if !removeOk then
    let ctx1 := ctx.addConflict ConflictType.DIRECTORY_NOT_EMPTY name
    match newScmEntry with
    | none => ⟨ctx1, entries, nextIno, UpdateOutcome.invalidate⟩
    | some n =>
      if (lookupA entries n.name).isSome then
        ⟨ctx1.addError n.name, entries, nextIno + 1, UpdateOutcome.invalidate⟩
      else
        ⟨ctx1, insertEnt entries n.name ⟨n.ty, nextIno, some n.hash, false⟩,
          nextIno + 1, UpdateOutcome.invalidate⟩
  else
    let entries1 := eraseA entries name
    match newScmEntry with
    | none => ⟨ctx, entries1, nextIno, UpdateOutcome.invalidate⟩
    | some n =>
      if (lookupA entries1 n.name).isSome then
        ⟨ctx.addError n.name, entries1, nextIno + 1, UpdateOutcome.invalidate⟩
      else
        ⟨ctx, insertEnt entries1 n.name ⟨n.ty, nextIno, some n.hash, false⟩,
          nextIno + 1, UpdateOutcome.invalidate⟩

/-- Modelled from the spec: the driver of one deferred `CheckoutAction`
(CheckoutAction.h/.cpp are not under src/; only their construction in
`processCheckoutEntry` and the `checkoutUpdateEntry` call they make are).
Once the loaded inode and both source-control objects are available, the
action decides whether the local state conflicts with the old source-control
state (`conflict`).  Per the spec, a conflict is recorded in every mode; in a
non-Force mode it suppresses the destructive change at that path, so
`checkoutUpdateEntry` is not invoked; in Force mode, and whenever there is no
conflict, the update proceeds. -/
def runCheckoutAction (env : CheckoutEnv) (ctx : CheckoutCtx)
    (entries : List (String × DirEntry)) (nextIno : Nat) (name : String)
    (conflict : Option ConflictType) (isTree newTree removeOk : Bool)
    (newScmEntry : Option TreeEntry) : UpdateStep :=
  match conflict with
  | some ct =>
    let ctx1 := ctx.addConflict ct name
    if ctx.forceUpdate then
      checkoutUpdateEntry env ctx1 entries nextIno name isTree newTree removeOk
        newScmEntry
    else ⟨ctx1, entries, nextIno, UpdateOutcome.noInvalidate⟩
  | none =>
    checkoutUpdateEntry env ctx entries nextIno name isTree newTree removeOk newScmEntry

/-- Inner loop of the tandem walk over two name-sorted entry lists, in the
`comparePathComponent` order used by `computeCheckoutActions` and
`computeDiff` (case-sensitive mounts). -/
def mergeByNameAux {α β : Type} (na : α → String) (nb : β → String) (a : α)
    (rec : List β → List (Option α × Option β)) : List β → List (Option α × Option β)
  | [] => (some a, none) :: rec []
  | b :: bs =>
    if nameLt (na a) (nb b) then (some a, none) :: rec (b :: bs)
    else if nameLt (nb b) (na a) then (none, some b) :: mergeByNameAux na nb a rec bs
    else (some a, some b) :: rec bs

/-- The tandem walk over two name-sorted entry lists: each element of the
result is one (old, new) pair as classified by `comparePathComponent`
(TreeInode.cpp:2860-2928 and 2601-2635). -/
def mergeByName {α β : Type} (na : α → String) (nb : β → String) :
    List α → List β → List (Option α × Option β)
  | [], bs => bs.map fun b => (none, some b)
  | a :: as, bs => mergeByNameAux na nb a (mergeByName na nb as) bs

/-- Accumulated result of `computeCheckoutActions`. -/
structure ActionsResult where
  ctx : CheckoutCtx
  entries : List (String × DirEntry)
  nextIno : Nat
  actions : List (Option TreeEntry × Option TreeEntry)
  dirListModified : Bool
deriving Repr

/-- The entry loop of `computeCheckoutActions` (TreeInode.cpp:2855-2928). -/
def checkoutWalk (env : CheckoutEnv) (init : ActionsResult)
    (pairs : List (Option TreeEntry × Option TreeEntry)) : ActionsResult :=
  pairs.foldl
    (fun acc pr =>
      let r := processCheckoutEntry env acc.ctx acc.entries acc.nextIno pr.1 pr.2
      ⟨r.ctx, r.entries, r.nextIno, acc.actions ++ r.action.toList,
        acc.dirListModified || r.dirListModified⟩)
    init

/-- TreeInode::computeCheckoutActions (TreeInode.cpp:2830-2929): bail out via
`canShortCircuitCheckout` when this directory is unmodified and already in the
destination state, otherwise walk `fromTree` and `toTree` in tandem. -/
def computeCheckoutActions (env : CheckoutEnv) (ctx : CheckoutCtx)
    (treeHash : Option ObjectId) (entries : List (String × DirEntry)) (nextIno : Nat)
    (fromTree toTree : Option Tree) : ActionsResult :=
  match treeHash with
  | some h =>
    if canShortCircuitCheckout ctx.mode h fromTree toTree then
      ⟨ctx, entries, nextIno, [], false⟩
    else
      checkoutWalk env ⟨ctx, entries, nextIno, [], false⟩
        (mergeByName TreeEntry.name TreeEntry.name (treeEntriesOf fromTree)
          (treeEntriesOf toTree))
  | none =>
    checkoutWalk env ⟨ctx, entries, nextIno, [], false⟩
      (mergeByName TreeEntry.name TreeEntry.name (treeEntriesOf fromTree)
        (treeEntriesOf toTree))

/-- Result of `GitIgnoreStack::match` as consumed by the diff walk. -/
inductive GitIgnoreMatch where
  | INCLUDE
  | EXCLUDE
  | HIDDEN
deriving DecidableEq, Repr

/-- Reason carried by a failed deferred diff entry (the exception text). -/
abbrev DiffErr := String

/-- Calls made on the `DiffCallback` of a diff operation, with the full path
they are reported at. -/
inductive DiffEv where
  | addedPath (path : List String)
  | removedPath (path : List String)
  | modifiedPath (path : List String)
  | ignoredPath (path : List String)
  | diffError (path : List String) (reason : DiffErr)
deriving DecidableEq, Repr

/-- The deferred child comparisons queued by `computeDiff`, mirroring the
`DeferredDiffEntry::create*` constructors (DeferredDiffEntry.cpp): which
constructor was used, the path, and the data captured for the later `run()`. -/
inductive DeferredDescr where
  | untrackedEntry (path : List String) (isIgnored : Bool)
  | addedScm (path : List String) (wdHash : ObjectId) (isIgnored : Bool)
  | removedScm (path : List String) (scmHash : ObjectId)
  | modifiedEntry (path : List String) (scm : TreeEntry) (isIgnored : Bool)
  | modifiedScm (path : List String) (scmHash wdHash : ObjectId) (isIgnored : Bool)
  | modifiedBlob (path : List String) (scm : TreeEntry) (wdHash : ObjectId)
deriving DecidableEq, Repr

def DeferredDescr.path : DeferredDescr → List String
  | .untrackedEntry p _ => p
  | .addedScm p _ _ => p
  | .removedScm p _ => p
  | .modifiedEntry p _ _ => p
  | .modifiedScm p _ _ _ => p
  | .modifiedBlob p _ _ => p

/-- Fixed parameters of a diff operation (`DiffContext`), with
`GitIgnoreStack::match` abstracted as a function of the entry path and
whether the entry is a directory. -/
structure DiffParams where
  listIgnored : Bool
  ignoreMatch : List String → Bool → GitIgnoreMatch

/-- The `processUntracked` lambda of `TreeInode::computeDiff`
(TreeInode.cpp:2388-2455): classify an entry that exists locally but not in
the source-control tree, and queue the recursive work for directories. -/
def processUntracked (p : DiffParams) (currentPath : List String) (isIgnored : Bool)
    (name : String) (entry : DirEntry) : List DiffEv × List DeferredDescr :=
  let entryPath := currentPath ++ [name]
  let go : Bool → List DiffEv × List DeferredDescr := fun entryIgnored =>
    let evs :=
      if !entryIgnored then [DiffEv.addedPath entryPath]
      else if p.listIgnored then [DiffEv.ignoredPath entryPath]
      else []
    let defs :=
      if entry.isDirectory && (!entryIgnored || p.listIgnored) then
        if entry.loaded then [DeferredDescr.untrackedEntry entryPath entryIgnored]
        else if entry.hash.isNone then [DeferredDescr.untrackedEntry entryPath entryIgnored]
        else
          match entry.hash with
          | some h => [DeferredDescr.addedScm entryPath h entryIgnored]
          | none => []
      else []
    (evs, defs)
  if isIgnored then go true
  else
    match p.ignoreMatch entryPath entry.isDirectory with
    | GitIgnoreMatch.HIDDEN => ([], [])
    | GitIgnoreMatch.EXCLUDE => go true
    | GitIgnoreMatch.INCLUDE => go false

/-- The `processRemoved` lambda of `TreeInode::computeDiff`
(TreeInode.cpp:2457-2465). -/
def processRemoved (currentPath : List String) (scmEntry : TreeEntry) :
    List DiffEv × List DeferredDescr :=
  let entryPath := currentPath ++ [scmEntry.name]
  ([DiffEv.removedPath entryPath],
    if scmEntry.ty = TreeEntryType.TREE then [DeferredDescr.removedScm entryPath scmEntry.hash]
    else [])

/-- The `processBothPresent` lambda of `TreeInode::computeDiff`
(TreeInode.cpp:2467-2589). -/
def processBothPresent (p : DiffParams) (currentPath : List String) (isIgnored : Bool)
    (scmEntry : TreeEntry) (entry : DirEntry) : List DiffEv × List DeferredDescr :=
  let entryPath := currentPath ++ [scmEntry.name]
  let entryIgnored :=
    if isIgnored then true
    else if entry.isDirectory || decide (scmEntry.ty = TreeEntryType.TREE) then
      match p.ignoreMatch entryPath entry.isDirectory with
      | GitIgnoreMatch.HIDDEN => true
      | GitIgnoreMatch.EXCLUDE => true
      | GitIgnoreMatch.INCLUDE => false
    else isIgnored
  if entry.loaded then ([], [DeferredDescr.modifiedEntry entryPath scmEntry entryIgnored])
  else if entry.hash.isNone then
    ([], [DeferredDescr.modifiedEntry entryPath scmEntry entryIgnored])
  else if decide (entry.ty = scmEntry.ty) && decide (entry.hash = some scmEntry.hash) then
    ([], [])
  else if entry.isDirectory then
    match entry.hash with
    | some wdHash =>
      ([DiffEv.modifiedPath entryPath],
        [DeferredDescr.modifiedScm entryPath scmEntry.hash wdHash entryIgnored])
    | none => ([], [])
  else if scmEntry.ty = TreeEntryType.TREE then
    ((if entryIgnored then
        if p.listIgnored then [DiffEv.ignoredPath entryPath] else []
      else [DiffEv.addedPath entryPath]) ++ [DiffEv.removedPath entryPath],
      [DeferredDescr.removedScm entryPath scmEntry.hash])
  else if !decide (entry.ty = scmEntry.ty) then ([DiffEv.modifiedPath entryPath], [])
  else
    match entry.hash with
    | some wdHash => ([], [DeferredDescr.modifiedBlob entryPath scmEntry wdHash])
    | none => ([], [])

/-- The tandem walk of `TreeInode::computeDiff` (TreeInode.cpp:2591-2635):
immediate callback events and the queued deferred entries, in order. -/
def diffWalk (p : DiffParams) (currentPath : List String) (isIgnored : Bool)
    (entries : List (String × DirEntry)) (tree : Option Tree) :
    List DiffEv × List DeferredDescr :=
  (mergeByName TreeEntry.name Prod.fst (treeEntriesOf tree) entries).foldl
    (fun acc pr =>
      match pr with
      | (some s, none) =>
        let r := processRemoved currentPath s
        (acc.1 ++ r.1, acc.2 ++ r.2)
      | (none, some (n, e)) =>
        let r := processUntracked p currentPath isIgnored n e
        (acc.1 ++ r.1, acc.2 ++ r.2)
      | (some s, some (_, e)) =>
        let r := processBothPresent p currentPath isIgnored s e
        (acc.1 ++ r.1, acc.2 ++ r.2)
      | (none, none) => acc)
    ([], [])

/-- The deferred-entry completion of `TreeInode::computeDiff`
(TreeInode.cpp:2644-2679): all deferred jobs are run, the events of successful
jobs are kept, and each failed job is turned into a `diffError` callback at its
path by the final loop over the collected results. -/
def runDeferredEvents (runChild : DeferredDescr → Except DiffErr (List DiffEv))
    (defs : List DeferredDescr) : List DiffEv :=
  (defs.map fun d =>
    match runChild d with
    | Except.ok evs => evs
    | Except.error _ => []).flatten ++
  defs.filterMap fun d =>
    match runChild d with
    | Except.error e => some (DiffEv.diffError d.path e)
    | Except.ok _ => none

/-- TreeInode::computeDiff (TreeInode.cpp:2354-2680), with the recursive work
of each deferred entry abstracted as `runChild`.  The function reports success
even when deferred jobs failed, as those failures have already been reported
through `diffError`. -/
def computeDiff (p : DiffParams) (runChild : DeferredDescr → Except DiffErr (List DiffEv))
    (currentPath : List String) (entries : List (String × DirEntry)) (tree : Option Tree)
    (isIgnored : Bool) : Except DiffErr (List DiffEv) :=
  let w := diffWalk p currentPath isIgnored entries tree
  Except.ok (w.1 ++ runDeferredEvents runChild w.2)

/-- TreeInode::diff (TreeInode.cpp:2172-2298): return immediately when the
operation is cancelled, short-circuit with no callbacks when this directory is
unmaterialized and already matches the tree being compared against, and
otherwise fall through to `computeDiff` (the `.gitignore` loading between the
two is absorbed into `DiffParams.ignoreMatch`). -/
def diff (p : DiffParams) (runChild : DeferredDescr → Except DiffErr (List DiffEv))
    (cancelled : Bool) (currentPath : List String) (st : TreeInodeState)
    (tree : Option Tree) (isIgnored : Bool) : Except DiffErr (List DiffEv) :=
  if cancelled then Except.ok []
  else
    match st.treeHash, tree with
    | some h, some t =>
      if h = t.hash then Except.ok []
      else computeDiff p runChild currentPath st.entries tree isIgnored
    | some _, none => computeDiff p runChild currentPath st.entries tree isIgnored
    | none, _ => computeDiff p runChild currentPath st.entries tree isIgnored

/-- Stable insertion into an inode-number sorted list, matching the pop order
of the min-heap over `(InodeNumber, index)` pairs in `readdirImpl`
(TreeInode.cpp:2094-2110): ascending inode number, original position breaking
ties. -/
def sortIns (e : String × DirEntry) : List (String × DirEntry) → List (String × DirEntry)
  | [] => [e]
  | f :: rest => if e.2.ino ≤ f.2.ino then e :: f :: rest else f :: sortIns e rest

def sortByIno : List (String × DirEntry) → List (String × DirEntry)
  | [] => []
  | e :: rest => sortIns e (sortByIno rest)

/-- The entry loop of `readdirImpl` (TreeInode.cpp:2107-2117): pop entries in
inode order, adding each with offset value `ino + 2`, until the list is full;
the boolean is the function's `indices.size() == 0` result.  Note that when
`add` fails the popped entry has already left `indices`, reproducing the
source's accounting exactly. -/
def readdirLoop : Nat → List (String × DirEntry) → List (String × Nat × Nat) × Bool
  | _, [] => ([], true)
  | 0, _ :: rest => ([], rest.isEmpty)
  | cap + 1, (n, e) :: rest =>
    let r := readdirLoop cap rest
    ((n, e.ino, e.ino + 2) :: r.1, r.2)

/-- TreeInode::readdirImpl (TreeInode.cpp:2014-2118).  Offsets: `0` is
start-of-directory, `.` is reported with offset value 1, `..` with 2, and the
entry with inode number `ino` with `ino + 2`; only entries with `ino + 2`
greater than the requested offset are listed.  `cap` abstracts the capacity of
the kernel-provided listing buffer (`add` returns false when it is full); the
returned triples are `(name, ino, offset)`. -/
def readdirImpl (off cap selfIno parentIno : Nat) (entries : List (String × DirEntry)) :
    List (String × Nat × Nat) × Bool :=
  let eligible := sortByIno (entries.filter fun e => decide (off < e.2.ino + 2))
  if off = 0 then
    match cap with
    | 0 => ([], false)
    | 1 => ([(".", selfIno, 1)], false)
    | c + 2 =>
      let r := readdirLoop c eligible
      ((".", selfIno, 1) :: ("..", parentIno, 2) :: r.1, r.2)
  else if off ≤ 1 then
    match cap with
    | 0 => ([], false)
    | c + 1 =>
      let r := readdirLoop c eligible
      (("..", parentIno, 2) :: r.1, r.2)
  else readdirLoop cap eligible

def EPERM : Nat := 1
def ENOENT : Nat := 2
def EIO : Nat := 5
def EBADF : Nat := 9
def ENOTDIR : Nat := 20
def EISDIR : Nat := 21
def ENOTEMPTY : Nat := 39

/-- The state `tryRemoveChild` can observe for the named entry at one attempt:
which of its early-exit conditions fires first, if any
(TreeInode.cpp:1446-1531). -/
inductive RemoveObs where
  | dotEden
  | entryMissing
  | entryUnloaded
  | entryChanged
  | wrongType
  | notEmpty
  | invalidationFailed
  | removable
deriving DecidableEq, Repr

/-- The errno result of TreeInode::tryRemoveChild (TreeInode.cpp:1446-1531)
as a function of the observed entry state; 0 means the child was removed.
`isRmdir` selects the `WRONG_TYPE_ERRNO` of the instantiated child type
(`ENOTDIR` for `TreeInodePtr`, `EISDIR` for `FileInodePtr`); `ENOTEMPTY` comes
from `checkPreRemove` on a tree child (TreeInode.cpp:1533-1540). -/
def tryRemoveChild (isRmdir : Bool) (obs : RemoveObs) : Nat :=
  match obs with
  | RemoveObs.dotEden => EPERM
  | RemoveObs.entryMissing => ENOENT
  | RemoveObs.entryUnloaded => EBADF
  | RemoveObs.entryChanged => EBADF
  | RemoveObs.wrongType => if isRmdir then ENOTDIR else EISDIR
  | RemoveObs.notEmpty => ENOTEMPTY
  | RemoveObs.invalidationFailed => EIO
  | RemoveObs.removable => 0

def kMaxRemoveRetries : Nat := 3

/-- The retry recursion of TreeInode::removeImpl (TreeInode.cpp:1354-1443):
attempt `tryRemoveChild`; success and every errno other than `EBADF` are final;
on `EBADF` the child is reloaded and the call retries with `attemptNum + 1`
unless `attemptNum > kMaxRemoveRetries`, in which case the operation fails with
`EIO`.  `env` gives the observation of each numbered attempt, and `fuel`
bounds the recursion (it never runs out when starting from `removeImpl`,
because the attempt counter reaches the `EIO` exit first). -/
def removeImplGo (isRmdir : Bool) (env : Nat → RemoveObs) : Nat → Nat → Except Nat Unit
  | attemptNum, fuel =>
    let errno := tryRemoveChild isRmdir (env attemptNum)
    if errno = 0 then Except.ok ()
    else if errno ≠ EBADF then Except.error errno
    else if kMaxRemoveRetries < attemptNum then Except.error EIO
    else
      match fuel with
      | 0 => Except.error EIO
      | f + 1 => removeImplGo isRmdir env (attemptNum + 1) f

/-- TreeInode::removeImpl as entered from `unlink`/`rmdir`
(TreeInode.cpp:1170-1196), which start at `attemptNum = 1`. -/
def removeImpl (isRmdir : Bool) (env : Nat → RemoveObs) : Except Nat Unit :=
  removeImplGo isRmdir env 1 kMaxRemoveRetries

/-- The checkout-relevant fields of `EdenMount`'s parent state
(`parentState_` in EdenMount.h). -/
structure ParentState where
  workingCopyParentRootId : Nat
  checkoutInProgress : Bool
deriving DecidableEq, Repr

/-- Outcome of `EdenMount::checkout`: either the early
`CHECKOUT_IN_PROGRESS` failure, or completion of the full operation with the
success flag of its body. -/
inductive CheckoutOutcome where
  | checkoutInProgressError
  | finished (success : Bool)
deriving DecidableEq, Repr

/-- EdenMount::checkout's begin/end protocol (EdenMount.cpp:1330-1478): under
the parent-state lock, fail with `CHECKOUT_IN_PROGRESS` if a checkout is
already running and otherwise set `checkoutInProgress`; the body of the
operation (tree fetches, journal diff, the root `TreeInode::checkout`, and the
finish step, abstracted here as `body` with a success flag) then runs, and the
`ensure` block clears `checkoutInProgress` whether the body succeeded or
failed. -/
def checkoutOp (st : ParentState) (body : ParentState → ParentState × Bool) :
    ParentState × CheckoutOutcome :=
  if st.checkoutInProgress then (st, CheckoutOutcome.checkoutInProgressError)
  else
    let st1 : ParentState := { st with checkoutInProgress := true }
    let r := body st1
    ({ r.1 with checkoutInProgress := false }, CheckoutOutcome.finished r.2)

/-- Modelled from the spec: the dematerialization check in the spec's words
("equality of entry count and pairwise name/type/ObjectId", §4.2), used to
compare the specified check against the one `saveOverlayPostCheckout`
actually performs. -/
def specDemCheck : List TreeEntry → List (String × DirEntry) → Bool
  | [], [] => true
  | se :: scmRest, (n, de) :: inodeRest =>
    match de.hash with
    | none => false
    | some h =>
      decide (se.name = n) && decide (se.ty = de.ty) && decide (se.hash = h) &&
        specDemCheck scmRest inodeRest
  | _, _ => false

/-! Lemmas about the association-list primitives. -/

theorem lookupA_eq_none {κ α : Type} [DecidableEq κ] (l : List (κ × α)) (k : κ) :
    lookupA l k = none ↔ k ∉ l.map Prod.fst := by
  induction l with
  | nil => simp [lookupA]
  | cons h t ih =>
    obtain ⟨k', v⟩ := h
    by_cases hk : k' = k
    · subst hk
      simp [lookupA]
    · simp only [lookupA, hk, if_false, List.map_cons, List.mem_cons]
      rw [ih]
      constructor
      · intro h1 h2
        rcases h2 with h2 | h2
        · exact hk h2.symm
        · exact h1 h2
      · intro h1 h2
        exact h1 (Or.inr h2)

theorem mem_of_lookupA {κ α : Type} [DecidableEq κ] {l : List (κ × α)} {k : κ} {v : α}
    (h : lookupA l k = some v) : (k, v) ∈ l := by
  induction l with
  | nil => simp [lookupA] at h
  | cons hd t ih =>
    obtain ⟨k', v'⟩ := hd
    by_cases hk : k' = k
    · subst hk
      simp [lookupA] at h
      simp [h]
    · simp [lookupA, hk] at h
      exact List.mem_cons_of_mem _ (ih h)

theorem mem_keys_of_lookupA {κ α : Type} [DecidableEq κ] {l : List (κ × α)} {k : κ} {v : α}
    (h : lookupA l k = some v) : k ∈ l.map Prod.fst := by
  have := mem_of_lookupA h
  exact List.mem_map.mpr ⟨(k, v), this, rfl⟩

theorem lookupA_of_mem_nodup {κ α : Type} [DecidableEq κ] {l : List (κ × α)} {k : κ} {v : α}
    (hnd : (l.map Prod.fst).Nodup) (h : (k, v) ∈ l) : lookupA l k = some v := by
  induction l with
  | nil => simp at h
  | cons hd t ih =>
    obtain ⟨k', v'⟩ := hd
    simp only [List.map_cons, List.nodup_cons] at hnd
    rcases List.mem_cons.mp h with h1 | h1
    · obtain ⟨h2, h3⟩ := Prod.mk.injEq .. ▸ h1.symm
      subst h2
      subst h3
      simp [lookupA]
    · have hne : k' ≠ k := by
        intro he
        subst he
        exact hnd.1 (List.mem_map.mpr ⟨(k', v), h1, rfl⟩)
      simp [lookupA, hne]
      exact ih hnd.2 h1

theorem lookupA_setA_self {κ α : Type} [DecidableEq κ] {l : List (κ × α)} {k : κ} {w : α}
    (v : α) (h : lookupA l k = some w) : lookupA (setA l k v) k = some v := by
  induction l with
  | nil => simp [lookupA] at h
  | cons hd t ih =>
    obtain ⟨k', v'⟩ := hd
    by_cases hk : k' = k
    · subst hk
      simp [setA, lookupA]
    · simp [lookupA, hk] at h
      simp [setA, lookupA, hk]
      exact ih h

theorem lookupA_setA_ne {κ α : Type} [DecidableEq κ] (l : List (κ × α)) (k k' : κ) (v : α)
    (h : k' ≠ k) : lookupA (setA l k v) k' = lookupA l k' := by
  induction l with
  | nil => simp [setA]
  | cons hd t ih =>
    obtain ⟨k'', v''⟩ := hd
    by_cases hk : k'' = k
    · subst hk
      have hne : k'' ≠ k' := fun he => h (he ▸ rfl)
      simp [setA, lookupA, hne]
    · simp only [setA, hk, if_false, lookupA]
      by_cases hk2 : k'' = k' <;> simp [hk2, ih]

theorem keys_setA {κ α : Type} [DecidableEq κ] (l : List (κ × α)) (k : κ) (v : α) :
    (setA l k v).map Prod.fst = l.map Prod.fst := by
  induction l with
  | nil => simp [setA]
  | cons hd t ih =>
    obtain ⟨k', v'⟩ := hd
    by_cases hk : k' = k <;> simp [setA, hk, ih]

theorem lookupA_setA_isSome {κ α : Type} [DecidableEq κ] (l : List (κ × α)) (k k' : κ)
    (v : α) : (lookupA (setA l k v) k').isSome = (lookupA l k').isSome := by
  by_cases hk : k' = k
  · subst hk
    cases h : lookupA l k' with
    | none =>
      have : lookupA (setA l k' v) k' = none := by
        rw [lookupA_eq_none, keys_setA]
        exact (lookupA_eq_none l k').mp h
      simp [this, h]
    | some w => simp [lookupA_setA_self v h, h]
  · rw [lookupA_setA_ne l k k' v hk]

theorem mem_setA {κ α : Type} [DecidableEq κ] {l : List (κ × α)} {k : κ} {v : α}
    {x : κ × α} (h : x ∈ setA l k v) : x ∈ l ∨ x = (k, v) := by
  induction l with
  | nil => simp [setA] at h
  | cons hd t ih =>
    obtain ⟨k', v'⟩ := hd
    by_cases hk : k' = k
    · subst hk
      simp [setA] at h
      rcases h with h | h
      · exact Or.inr (by simp [h])
      · exact Or.inl (List.mem_cons_of_mem _ h)
    · simp [setA, hk] at h
      rcases h with h | h
      · exact Or.inl (by simp [h])
      · rcases ih h with h1 | h1
        · exact Or.inl (List.mem_cons_of_mem _ h1)
        · exact Or.inr h1

theorem mem_setA_of_ne {κ α : Type} [DecidableEq κ] {l : List (κ × α)} {k : κ} {v : α}
    {x : κ × α} (h : x ∈ setA l k v) (hne : x.1 ≠ k) : x ∈ l := by
  rcases mem_setA h with h1 | h1
  · exact h1
  · exact absurd (by simp [h1]) hne

theorem mem_setA_eq_nodup {κ α : Type} [DecidableEq κ] {l : List (κ × α)} {k : κ} {v w : α}
    {x : κ × α} (hnd : (l.map Prod.fst).Nodup) (hl : lookupA l k = some w)
    (h : x ∈ setA l k v) (hx : x.1 = k) : x = (k, v) := by
  induction l with
  | nil => simp [lookupA] at hl
  | cons hd t ih =>
    obtain ⟨k', v'⟩ := hd
    simp only [List.map_cons, List.nodup_cons] at hnd
    by_cases hk : k' = k
    · subst hk
      simp [setA] at h
      rcases h with h | h
      · simp [h]
      · exfalso
        exact hnd.1 (hx ▸ List.mem_map.mpr ⟨x, h, rfl⟩)
    · simp [lookupA, hk] at hl
      simp [setA, hk] at h
      rcases h with h | h
      · exfalso
        exact hk (by rw [← hx]; simp [h])
      · exact ih hnd.2 hl h

theorem lookupA_eraseA_nodup {κ α : Type} [DecidableEq κ] {l : List (κ × α)} {k : κ}
    (hnd : (l.map Prod.fst).Nodup) : lookupA (eraseA l k) k = none := by
  induction l with
  | nil => simp [eraseA, lookupA]
  | cons hd t ih =>
    obtain ⟨k', v'⟩ := hd
    simp only [List.map_cons, List.nodup_cons] at hnd
    by_cases hk : k' = k
    · subst hk
      simp [eraseA]
      rw [lookupA_eq_none]
      exact hnd.1
    · simp [eraseA, hk, lookupA]
      exact ih hnd.2

theorem lookupA_insertEnt_absent {α : Type} {l : List (String × α)} {k : String} (v : α)
    (h : k ∉ l.map Prod.fst) : lookupA (insertEnt l k v) k = some v := by
  induction l with
  | nil => simp [insertEnt, lookupA]
  | cons hd t ih =>
    obtain ⟨k', v'⟩ := hd
    simp only [List.map_cons, List.mem_cons] at h
    push_neg at h
    by_cases hlt : nameLt k k' = true
    · simp [insertEnt, hlt, lookupA]
    · have hne : k' ≠ k := fun he => h.1 he.symm
      simp [insertEnt, hlt, lookupA, hne]
      exact ih h.2

/-- C5: `EdenMount::checkout` fails with `CHECKOUT_IN_PROGRESS` and leaves the
mount state unchanged exactly when `checkoutInProgress` is already set;
otherwise the flag is set before the body runs, the ensure block clears it
whether the body succeeds or fails, and a second checkout started from the
in-flight state fails. -/
theorem c5_checkout_in_progress (st : ParentState) (body : ParentState → ParentState × Bool) :
    ((checkoutOp st body).2 = CheckoutOutcome.checkoutInProgressError ∧
        (checkoutOp st body).1 = st ↔ st.checkoutInProgress = true) ∧
    (st.checkoutInProgress = false →
      checkoutOp st body =
        ({ (body { st with checkoutInProgress := true }).1 with checkoutInProgress := false },
          CheckoutOutcome.finished (body { st with checkoutInProgress := true }).2) ∧
      (checkoutOp st body).1.checkoutInProgress = false ∧
      ∀ body2, (checkoutOp { st with checkoutInProgress := true } body2).2 =
        CheckoutOutcome.checkoutInProgressError) := by
  cases h : st.checkoutInProgress <;> simp [checkoutOp, h]

theorem c5_checkout_in_progress_witness :
    (checkoutOp ⟨7, false⟩ (fun s => (s, true))).1.checkoutInProgress = false ∧
    (checkoutOp ⟨7, true⟩ (fun s => (s, true))).2 =
      CheckoutOutcome.checkoutInProgressError := by
  refine ⟨((c5_checkout_in_progress ⟨7, false⟩ (fun s => (s, true))).2 rfl).2.1, ?_⟩
  exact ((c5_checkout_in_progress ⟨7, true⟩ (fun s => (s, true))).1.mpr rfl).1

/-- C6: `TreeInode::diff` on a directory that is unmaterialized and whose
`treeHash` equals the hash of the tree it is compared against returns success
with no callbacks at all, for that directory and hence for all of its
descendants (none are visited); in particular a clean working copy diffed
against its own checked-out tree produces an empty callback. -/
theorem c6_diff_short_circuit (p : DiffParams)
    (runChild : DeferredDescr → Except DiffErr (List DiffEv)) (currentPath : List String)
    (st : TreeInodeState) (t : Tree) (isIgnored : Bool) (h : ObjectId)
    (hh : st.treeHash = some h) (ht : t.hash = h) :
    diff p runChild false currentPath st (some t) isIgnored = Except.ok [] := by
  simp [diff, hh, ht]

theorem c6_diff_short_circuit_witness :
    diff ⟨false, fun _ _ => GitIgnoreMatch.INCLUDE⟩ (fun _ => Except.ok []) false []
      ⟨some [1, 2], [("a", ⟨TreeEntryType.REGULAR_FILE, 3, some [4], false⟩)]⟩
      (some ⟨[1, 2], []⟩) false = Except.ok [] :=
  c6_diff_short_circuit _ _ _ _ _ _ [1, 2] rfl rfl

/-- C7: `TreeInode::computeDiff` completes with success regardless of how its
deferred child diffs fare; every deferred child that fails is reported through
a `diffError` callback at that child's path, and the callbacks of every
sibling that succeeded are still delivered. -/
theorem c7_deferred_diff_errors (p : DiffParams)
    (runChild : DeferredDescr → Except DiffErr (List DiffEv)) (currentPath : List String)
    (entries : List (String × DirEntry)) (tree : Option Tree) (isIgnored : Bool) :
    ∃ evs, computeDiff p runChild currentPath entries tree isIgnored = Except.ok evs ∧
      (∀ d e, d ∈ (diffWalk p currentPath isIgnored entries tree).2 →
        runChild d = Except.error e → DiffEv.diffError d.path e ∈ evs) ∧
      (∀ d es, d ∈ (diffWalk p currentPath isIgnored entries tree).2 →
        runChild d = Except.ok es → ∀ ev ∈ es, ev ∈ evs) := by
  refine ⟨_, rfl, ?_, ?_⟩
  · intro d e hd hre
    simp only [runDeferredEvents, List.mem_append]
    right
    right
    exact List.mem_filterMap.mpr ⟨d, hd, by rw [hre]⟩
  · intro d es hd hre ev hev
    simp only [runDeferredEvents, List.mem_append]
    right
    left
    refine List.mem_flatten.mpr ⟨es, ?_, hev⟩
    exact List.mem_map.mpr ⟨d, hd, by rw [hre]⟩

theorem c7_deferred_diff_errors_witness :
    ∃ evs,
      computeDiff ⟨false, fun _ _ => GitIgnoreMatch.INCLUDE⟩
        (fun d => if d.path = ["x"] then Except.error "boom" else Except.ok []) []
        [("x", ⟨TreeEntryType.TREE, 3, none, true⟩)] none false = Except.ok evs ∧
      DiffEv.diffError ["x"] "boom" ∈ evs := by
  obtain ⟨evs, h1, h2, _⟩ :=
    c7_deferred_diff_errors ⟨false, fun _ _ => GitIgnoreMatch.INCLUDE⟩
      (fun d => if d.path = ["x"] then Except.error "boom" else Except.ok []) []
      [("x", ⟨TreeEntryType.TREE, 3, none, true⟩)] none false
  refine ⟨evs, h1, ?_⟩
  have hd : DeferredDescr.untrackedEntry ["x"] false ∈
      (diffWalk ⟨false, fun _ _ => GitIgnoreMatch.INCLUDE⟩ [] false
        [("x", ⟨TreeEntryType.TREE, 3, none, true⟩)] none).2 := by decide
  exact h2 _ "boom" hd (by rfl)

theorem removeImplGo_unfold (isRmdir : Bool) (env : Nat → RemoveObs) (a f : Nat) :
    removeImplGo isRmdir env a f =
      (if tryRemoveChild isRmdir (env a) = 0 then Except.ok ()
       else if tryRemoveChild isRmdir (env a) ≠ EBADF then
         Except.error (tryRemoveChild isRmdir (env a))
       else if kMaxRemoveRetries < a then Except.error EIO
       else
         match f with
         | 0 => Except.error EIO
         | f2 + 1 => removeImplGo isRmdir env (a + 1) f2) := by
  cases f <;> rfl

/-- C10: the unlink/rmdir retry loop terminates with a bounded number of
attempts.  If the first `j`-th attempt (counting from 1) is the first whose
`tryRemoveChild` result is not `EBADF`, the operation finishes there with that
result — success, or the errno returned without any further retry.  If every
attempt up to attempt `kMaxRemoveRetries + 1 = 4` keeps returning `EBADF`, the
operation gives up with `EIO` instead of retrying again. -/
theorem c10_remove_retry_bound (isRmdir : Bool) (env : Nat → RemoveObs) :
    ((∀ k, 1 ≤ k → k ≤ kMaxRemoveRetries + 1 → tryRemoveChild isRmdir (env k) = EBADF) →
      removeImpl isRmdir env = Except.error EIO) ∧
    (∀ j e, 1 ≤ j → j ≤ kMaxRemoveRetries + 1 →
      (∀ k, 1 ≤ k → k < j → tryRemoveChild isRmdir (env k) = EBADF) →
      tryRemoveChild isRmdir (env j) = e → e ≠ EBADF →
      removeImpl isRmdir env = if e = 0 then Except.ok () else Except.error e) := by
  constructor
  · intro hall
    have h1 := hall 1 (by omega) (by simp [kMaxRemoveRetries])
    have h2 := hall 2 (by omega) (by simp [kMaxRemoveRetries])
    have h3 := hall 3 (by omega) (by simp [kMaxRemoveRetries])
    have h4 := hall 4 (by omega) (by simp [kMaxRemoveRetries])
    rw [removeImpl, removeImplGo_unfold, h1]
    simp only [EBADF, kMaxRemoveRetries]
    norm_num
    rw [removeImplGo_unfold, h2]
    simp only [EBADF]
    norm_num
    rw [removeImplGo_unfold, h3]
    simp only [EBADF]
    norm_num
    rw [removeImplGo_unfold, h4]
    simp [EBADF]
  · intro j e hj1 hj2 hbefore hje hne
    simp only [kMaxRemoveRetries] at hj2
    interval_cases j
    · rw [removeImpl, removeImplGo_unfold, hje]
      by_cases he0 : e = 0
      · simp [he0]
      · simp [he0, hne]
    · have h1 := hbefore 1 (by omega) (by omega)
      rw [removeImpl, removeImplGo_unfold, h1]
      simp only [EBADF, kMaxRemoveRetries]
      norm_num
      rw [removeImplGo_unfold, hje]
      by_cases he0 : e = 0
      · simp [he0, kMaxRemoveRetries]
      · simp [he0, hne, kMaxRemoveRetries]
    · have h1 := hbefore 1 (by omega) (by omega)
      have h2 := hbefore 2 (by omega) (by omega)
      rw [removeImpl, removeImplGo_unfold, h1]
      simp only [EBADF, kMaxRemoveRetries]
      norm_num
      rw [removeImplGo_unfold, h2]
      simp only [EBADF]
      norm_num
      rw [removeImplGo_unfold, hje]
      by_cases he0 : e = 0
      · simp [he0, kMaxRemoveRetries]
      · simp [he0, hne, kMaxRemoveRetries]
    · have h1 := hbefore 1 (by omega) (by omega)
      have h2 := hbefore 2 (by omega) (by omega)
      have h3 := hbefore 3 (by omega) (by omega)
      rw [removeImpl, removeImplGo_unfold, h1]
      simp only [EBADF, kMaxRemoveRetries]
      norm_num
      rw [removeImplGo_unfold, h2]
      simp only [EBADF]
      norm_num
      rw [removeImplGo_unfold, h3]
      simp only [EBADF]
      norm_num
      rw [removeImplGo_unfold, hje]
      by_cases he0 : e = 0
      · simp [he0, kMaxRemoveRetries]
      · simp [he0, hne, kMaxRemoveRetries]

theorem c10_remove_retry_bound_witness :
    removeImpl true (fun _ => RemoveObs.entryUnloaded) = Except.error EIO ∧
    removeImpl true (fun _ => RemoveObs.notEmpty) = Except.error ENOTEMPTY ∧
    removeImpl false (fun _ => RemoveObs.removable) = Except.ok () := by
  refine ⟨(c10_remove_retry_bound true (fun _ => RemoveObs.entryUnloaded)).1
    (fun k _ _ => rfl), ?_, ?_⟩
  · have := (c10_remove_retry_bound true (fun _ => RemoveObs.notEmpty)).2 1 ENOTEMPTY
      (by omega) (by simp [kMaxRemoveRetries]) (fun k hk1 hk2 => by omega) rfl (by decide)
    simpa using this
  · have := (c10_remove_retry_bound false (fun _ => RemoveObs.removable)).2 1 0
      (by omega) (by simp [kMaxRemoveRetries]) (fun k hk1 hk2 => by omega) rfl (by decide)
    simpa using this

theorem canShortCircuit_of_same (mode : CheckoutMode) (h : ObjectId) (fromTree : Option Tree)
    (t : Tree) (hto : h = t.hash)
    (hfrom : fromTree = none ∨ ∃ f, fromTree = some f ∧ f.hash = h) :
    canShortCircuitCheckout mode h fromTree (some t) = true := by
  rcases hfrom with hf | ⟨f, hf, hfh⟩
  · subst hf
    cases mode <;> simp [canShortCircuitCheckout, hto]
  · subst hf
    cases mode <;> simp [canShortCircuitCheckout, hto, hfh]

/-- C3 (amended): if a TreeInode is unmaterialized with `treeHash` equal to the
destination tree's hash, and the source tree is absent or has that same hash,
then `computeCheckoutActions` does no work in any mode: no actions, no
conflicts, no errors, and the directory contents are untouched.  (The claim's
third disjunct — Force mode with a differing source tree — does not
short-circuit; see the counterexample.) -/
theorem c3_short_circuit (env : CheckoutEnv) (ctx : CheckoutCtx)
    (entries : List (String × DirEntry)) (nextIno : Nat) (h : ObjectId)
    (fromTree : Option Tree) (t : Tree) (hto : h = t.hash)
    (hfrom : fromTree = none ∨ ∃ f, fromTree = some f ∧ f.hash = h) :
    computeCheckoutActions env ctx (some h) entries nextIno fromTree (some t) =
      ⟨ctx, entries, nextIno, [], false⟩ := by
  simp [computeCheckoutActions, canShortCircuit_of_same ctx.mode h fromTree t hto hfrom]

theorem c3_short_circuit_witness :
    computeCheckoutActions ⟨fun _ => false, true, true⟩ ⟨CheckoutMode.FORCE, [], []⟩
      (some [2]) [("a", ⟨TreeEntryType.REGULAR_FILE, 7, some [2], false⟩)] 100
      none (some ⟨[2], [⟨"a", [2], TreeEntryType.REGULAR_FILE⟩]⟩) =
      ⟨⟨CheckoutMode.FORCE, [], []⟩,
        [("a", ⟨TreeEntryType.REGULAR_FILE, 7, some [2], false⟩)], 100, [], false⟩ :=
  c3_short_circuit _ _ _ _ [2] none _ rfl (Or.inl rfl)

/-- C3 counterexample: in Force mode, with the TreeInode unmaterialized at the
destination tree's hash but the source tree differing, the claim says checkout
performs no work; the code instead walks the entries, records a
`MODIFIED_MODIFIED` conflict and rewrites the entry (allocating a fresh inode
number), because `canShortCircuitCheckout` deliberately does not short-circuit
a Force update whose source state differs (TreeInode.cpp:2819-2827). -/
theorem c3_counterexample :
    (computeCheckoutActions ⟨fun _ => false, true, true⟩ ⟨CheckoutMode.FORCE, [], []⟩
        (some [2]) [("a", ⟨TreeEntryType.REGULAR_FILE, 7, some [2], false⟩)] 100
        (some ⟨[1], [⟨"a", [1], TreeEntryType.REGULAR_FILE⟩]⟩)
        (some ⟨[2], [⟨"a", [2], TreeEntryType.REGULAR_FILE⟩]⟩)).ctx.conflicts =
      [(ConflictType.MODIFIED_MODIFIED, "a")] ∧
    (computeCheckoutActions ⟨fun _ => false, true, true⟩ ⟨CheckoutMode.FORCE, [], []⟩
        (some [2]) [("a", ⟨TreeEntryType.REGULAR_FILE, 7, some [2], false⟩)] 100
        (some ⟨[1], [⟨"a", [1], TreeEntryType.REGULAR_FILE⟩]⟩)
        (some ⟨[2], [⟨"a", [2], TreeEntryType.REGULAR_FILE⟩]⟩)).entries =
      [("a", ⟨TreeEntryType.REGULAR_FILE, 100, some [2], false⟩)] := by
  constructor <;> rfl

theorem ne_of_length_lt {q rp : List String} (h : rp.length < q.length) : q ≠ rp := by
  intro he
  subst he
  omega

theorem childMaterialized_nil (st : MountState) (n : String) :
    childMaterialized [] st n =
      match lookupA st [] with
      | none => (st, [])
      | some node =>
        match lookupA node.entries n with
        | none => (st, [])
        | some childEntry =>
          if node.treeHash = none ∧ childEntry.hash = none then (st, [])
          else
            (setA st [] ⟨none, setA node.entries n { childEntry with hash := none }⟩,
              [OverlayWrite.save []
                (setA node.entries n { childEntry with hash := none })]) := by
  rw [childMaterialized.eq_def]

theorem childMaterialized_cons (m : String) (pp : List String) (st : MountState)
    (n : String) :
    childMaterialized (m :: pp) st n =
      match lookupA st (m :: pp) with
      | none => (st, [])
      | some node =>
        match lookupA node.entries n with
        | none => (st, [])
        | some childEntry =>
          if node.treeHash = none ∧ childEntry.hash = none then (st, [])
          else
            ((childMaterialized pp (setA st (m :: pp)
                ⟨none, setA node.entries n { childEntry with hash := none }⟩) m).1,
              OverlayWrite.save (m :: pp)
                  (setA node.entries n { childEntry with hash := none }) ::
                (childMaterialized pp (setA st (m :: pp)
                  ⟨none, setA node.entries n { childEntry with hash := none }⟩) m).2) := by
  rw [childMaterialized.eq_def]

theorem childMaterialized_frame (rp : List String) : ∀ (st : MountState) (n : String)
    (q : List String), rp.length < q.length →
    lookupA (childMaterialized rp st n).1 q = lookupA st q := by
  induction rp with
  | nil =>
    intro st n q hq
    rw [childMaterialized_nil]
    cases hnode : lookupA st [] with
    | none => rfl
    | some node =>
      dsimp only
      cases hent : lookupA node.entries n with
      | none => rfl
      | some ce =>
        dsimp only
        by_cases hcond : node.treeHash = none ∧ ce.hash = none
        · rw [if_pos hcond]
        · rw [if_neg hcond]
          exact lookupA_setA_ne st [] q _ (ne_of_length_lt hq)
  | cons m pp ih =>
    intro st n q hq
    rw [childMaterialized_cons]
    cases hnode : lookupA st (m :: pp) with
    | none => rfl
    | some node =>
      dsimp only
      cases hent : lookupA node.entries n with
      | none => rfl
      | some ce =>
        dsimp only
        by_cases hcond : node.treeHash = none ∧ ce.hash = none
        · rw [if_pos hcond]
        · rw [if_neg hcond]
          dsimp only
          rw [ih _ m q (by simp only [List.length_cons] at hq ⊢; omega)]
          exact lookupA_setA_ne st (m :: pp) q _ (ne_of_length_lt hq)

theorem childDematerialized_nil (st : MountState) (m : String) (h : ObjectId) :
    childDematerialized [] st m h =
      match lookupA st [] with
      | none => (st, [])
      | some node =>
        match lookupA node.entries m with
        | none => (st, [])
        | some childEntry =>
          if childEntry.hash = some h then (st, [])
          else
            (setA st [] ⟨none, setA node.entries m { childEntry with hash := some h }⟩,
              [OverlayWrite.save []
                (setA node.entries m { childEntry with hash := some h })]) := by
  unfold childDematerialized
  rfl

theorem childDematerialized_cons (m2 : String) (pp2 : List String) (st : MountState)
    (m : String) (h : ObjectId) :
    childDematerialized (m2 :: pp2) st m h =
      match lookupA st (m2 :: pp2) with
      | none => (st, [])
      | some node =>
        match lookupA node.entries m with
        | none => (st, [])
        | some childEntry =>
          if childEntry.hash = some h then (st, [])
          else
            ((childMaterialized pp2 (setA st (m2 :: pp2)
                ⟨none, setA node.entries m { childEntry with hash := some h }⟩) m2).1,
              OverlayWrite.save (m2 :: pp2)
                  (setA node.entries m { childEntry with hash := some h }) ::
                (childMaterialized pp2 (setA st (m2 :: pp2)
                  ⟨none, setA node.entries m { childEntry with hash := some h }⟩) m2).2) := by
  unfold childDematerialized
  rfl

theorem childDematerialized_frame (pp : List String) (st : MountState) (m : String)
    (h : ObjectId) (q : List String) (hq : pp.length < q.length) :
    lookupA (childDematerialized pp st m h).1 q = lookupA st q := by
  cases pp with
  | nil =>
    rw [childDematerialized_nil]
    cases hnode : lookupA st [] with
    | none => rfl
    | some node =>
      dsimp only
      cases hent : lookupA node.entries m with
      | none => rfl
      | some ce =>
        dsimp only
        by_cases hcond : ce.hash = some h
        · rw [if_pos hcond]
        · rw [if_neg hcond]
          exact lookupA_setA_ne st [] q _ (ne_of_length_lt hq)
  | cons m2 pp2 =>
    rw [childDematerialized_cons]
    cases hnode : lookupA st (m2 :: pp2) with
    | none => rfl
    | some node =>
      dsimp only
      cases hent : lookupA node.entries m with
      | none => rfl
      | some ce =>
        dsimp only
        by_cases hcond : ce.hash = some h
        · rw [if_pos hcond]
        · rw [if_neg hcond]
          dsimp only
          rw [childMaterialized_frame pp2 _ m2 q
            (by simp only [List.length_cons] at hq ⊢; omega)]
          exact lookupA_setA_ne st (m2 :: pp2) q _ (ne_of_length_lt hq)

theorem childMaterialized_events (rp : List String) : ∀ (st : MountState) (n : String)
    (ev : OverlayWrite), ev ∈ (childMaterialized rp st n).2 → ev.path <:+ rp := by
  induction rp with
  | nil =>
    intro st n ev hev
    rw [childMaterialized_nil] at hev
    cases hnode : lookupA st [] with
    | none =>
      rw [hnode] at hev
      simp at hev
    | some node =>
      rw [hnode] at hev
      dsimp only at hev
      cases hent : lookupA node.entries n with
      | none =>
        rw [hent] at hev
        simp at hev
      | some ce =>
        rw [hent] at hev
        dsimp only at hev
        by_cases hcond : node.treeHash = none ∧ ce.hash = none
        · rw [if_pos hcond] at hev
          simp at hev
        · rw [if_neg hcond] at hev
          simp only [List.mem_singleton] at hev
          subst hev
          simp [OverlayWrite.path]
  | cons m pp ih =>
    intro st n ev hev
    rw [childMaterialized_cons] at hev
    cases hnode : lookupA st (m :: pp) with
    | none =>
      rw [hnode] at hev
      simp at hev
    | some node =>
      rw [hnode] at hev
      dsimp only at hev
      cases hent : lookupA node.entries n with
      | none =>
        rw [hent] at hev
        simp at hev
      | some ce =>
        rw [hent] at hev
        dsimp only at hev
        by_cases hcond : node.treeHash = none ∧ ce.hash = none
        · rw [if_pos hcond] at hev
          simp at hev
        · rw [if_neg hcond] at hev
          simp only [List.mem_cons] at hev
          rcases hev with hev | hev
          · subst hev
            simp [OverlayWrite.path]
          · have := ih _ m ev hev
            exact this.trans (List.suffix_cons m pp)

theorem childMaterialized_notifies (pp : List String) (st : MountState) (m : String)
    (parent : TreeInodeState) (pe : DirEntry) (hp : lookupA st pp = some parent)
    (hpe : lookupA parent.entries m = some pe) :
    ∃ parent2 pe2, lookupA (childMaterialized pp st m).1 pp = some parent2 ∧
      parent2.treeHash = none ∧ lookupA parent2.entries m = some pe2 ∧ pe2.hash = none := by
  cases pp with
  | nil =>
    rw [childMaterialized_nil, hp]
    dsimp only
    rw [hpe]
    dsimp only
    by_cases hcond : parent.treeHash = none ∧ pe.hash = none
    · rw [if_pos hcond]
      exact ⟨parent, pe, hp, hcond.1, hpe, hcond.2⟩
    · rw [if_neg hcond]
      exact ⟨_, _, lookupA_setA_self _ hp, rfl, lookupA_setA_self _ hpe, rfl⟩
  | cons m2 pp2 =>
    rw [childMaterialized_cons, hp]
    dsimp only
    rw [hpe]
    dsimp only
    by_cases hcond : parent.treeHash = none ∧ pe.hash = none
    · rw [if_pos hcond]
      exact ⟨parent, pe, hp, hcond.1, hpe, hcond.2⟩
    · rw [if_neg hcond]
      dsimp only
      rw [childMaterialized_frame pp2 _ m2 (m2 :: pp2) (by simp)]
      exact ⟨_, _, lookupA_setA_self _ hp, rfl, lookupA_setA_self _ hpe, rfl⟩


/-- C9: `TreeInode::materialize` is a no-op when the inode is already
materialized, and otherwise clears `treeHash`, writes this inode's own
directory contents to the overlay as the very first overlay write, and only
afterwards performs the parent notification: every other overlay write in the
trace belongs to a strict ancestor. -/
theorem c9_materialize_overlay_order (st : MountState) (rp : List String)
    (node : TreeInodeState) (hn : lookupA st rp = some node) :
    (node.treeHash = none → materialize st rp = (st, [])) ∧
    (node.treeHash ≠ none →
      ∃ rest, (materialize st rp).2 = OverlayWrite.save rp node.entries :: rest ∧
        (∀ ev ∈ rest, ev.path ≠ rp ∧ ev.path <:+ rp) ∧
        lookupA (materialize st rp).1 rp = some ⟨none, node.entries⟩) := by
  constructor
  · intro hm
    simp [materialize, hn, hm]
  · intro hm
    cases rp with
    | nil =>
      simp only [materialize, hn, hm, if_false]
      exact ⟨[], rfl, by simp, lookupA_setA_self _ hn⟩
    | cons m pp =>
      simp only [materialize, hn, hm, if_false]
      refine ⟨_, rfl, ?_, ?_⟩
      · intro ev hev
        have hsuf := childMaterialized_events pp _ m ev hev
        refine ⟨?_, hsuf.trans (List.suffix_cons m pp)⟩
        intro he
        have hlen := hsuf.length_le
        rw [he] at hlen
        simp only [List.length_cons] at hlen
        omega
      · rw [childMaterialized_frame pp _ m (m :: pp) (by simp)]
        exact lookupA_setA_self _ hn

theorem c9_materialize_overlay_order_witness :
    materialize [(["d"], ⟨none, []⟩)] ["d"] = ([(["d"], ⟨none, []⟩)], []) ∧
    (materialize [([], ⟨some [9], [("d", ⟨TreeEntryType.TREE, 2, some [3], false⟩)]⟩),
        (["d"], ⟨some [3], []⟩)] ["d"]).2.head? =
      some (OverlayWrite.save ["d"] []) := by
  constructor
  · exact (c9_materialize_overlay_order [(["d"], ⟨none, []⟩)] ["d"] ⟨none, []⟩ rfl).1 rfl
  · obtain ⟨rest, h1, -, -⟩ :=
      (c9_materialize_overlay_order
        [([], ⟨some [9], [("d", ⟨TreeEntryType.TREE, 2, some [3], false⟩)]⟩),
          (["d"], ⟨some [3], []⟩)] ["d"] ⟨some [3], []⟩ rfl).2 (by simp)
    rw [h1]
    rfl

theorem demCheckEntries_iff_zip : ∀ (ses : List TreeEntry) (es : List (String × DirEntry)),
    demCheckEntries ses es = true ↔
      (ses.length = es.length ∧
        ∀ pr ∈ List.zip ses es, (pr.2.2).hash = some pr.1.hash) := by
  intro ses
  induction ses with
  | nil =>
    intro es
    cases es <;> simp [demCheckEntries]
  | cons se ss ih =>
    intro es
    cases es with
    | nil => simp [demCheckEntries]
    | cons e es2 =>
      obtain ⟨n, de⟩ := e
      cases hde : de.hash with
      | none =>
        simp only [demCheckEntries, hde, List.zip_cons_cons, List.length_cons]
        constructor
        · intro hfalse
          exact absurd hfalse (by simp)
        · rintro ⟨h1, h2⟩
          have hh := h2 (se, (n, de)) (List.mem_cons_self _ _)
          rw [hde] at hh
          exact absurd hh (by simp)
      | some h =>
        simp only [demCheckEntries, hde, Bool.and_eq_true, decide_eq_true_eq,
          ih es2, List.zip_cons_cons, List.length_cons]
        constructor
        · rintro ⟨h1, h2, h3⟩
          refine ⟨by omega, ?_⟩
          intro pr hpr
          rcases List.mem_cons.mp hpr with hpr | hpr
          · subst hpr
            simp [hde, h1]
          · exact h3 pr hpr
        · rintro ⟨h1, h2⟩
          have hh := h2 (se, (n, de)) (List.mem_cons_self _ _)
          rw [hde] at hh
          refine ⟨Option.some.inj hh, by omega, ?_⟩
          intro pr hpr
          exact h2 pr (List.mem_cons_of_mem _ hpr)

theorem tryToDematerialize_eq_some_iff (tree : Option Tree)
    (entries : List (String × DirEntry)) (h : ObjectId) :
    tryToDematerialize tree entries = some h ↔
      ∃ t, tree = some t ∧ t.hash = h ∧ h ≠ [] ∧ t.entries.length = entries.length ∧
        demCheckEntries t.entries entries = true := by
  cases tree with
  | none => simp [tryToDematerialize]
  | some t =>
    simp only [tryToDematerialize, Option.some.injEq]
    by_cases hlen : t.entries.length = entries.length
    · by_cases hchk : demCheckEntries t.entries entries = true
      · by_cases hhash : t.hash = []
        · simp only [hlen, hchk, hhash, if_true, if_pos]
          constructor
          · intro hfalse
            exact absurd hfalse (by simp)
          · rintro ⟨t2, ht2, hth, hne, -, -⟩
            subst ht2
            exact absurd (hhash ▸ hth) (fun he => hne he.symm)
        · simp only [hlen, hchk, hhash, if_true, if_false]
          constructor
          · intro hh
            have := Option.some.inj hh
            exact ⟨t, rfl, this, fun he => hhash (this ▸ he), hlen, hchk⟩
          · rintro ⟨t2, ht2, hth, -, -, -⟩
            subst ht2
            simp [hth]
      · simp only [hlen, hchk, if_true, if_false]
        constructor
        · intro hfalse
          exact absurd hfalse (by simp)
        · rintro ⟨t2, ht2, -, -, -, hchk2⟩
          subst ht2
          exact absurd hchk2 hchk
    · simp only [hlen, if_false]
      constructor
      · intro hfalse
        exact absurd hfalse (by simp)
      · rintro ⟨t2, ht2, -, -, hlen2, -⟩
        subst ht2
        exact absurd hlen2 hlen

/-- C2 (amended): after a non-dry-run checkout finishes processing a
TreeInode's child actions, `saveOverlayPostCheckout` sets the inode's
`treeHash` to the destination tree's hash exactly when the destination tree
exists, its hash is non-empty, the entry counts agree, and pairwise in sorted
order every child entry is unmaterialized with its `DirEntry` ObjectId equal to
the corresponding source-control entry's ObjectId — entry names and types are
not part of the comparison; otherwise the inode stays materialized, and when
this changed its state the parent is told it is materialized (its entry for
this inode becomes materialized and the parent itself is materialized). -/
theorem c2_post_checkout_dematerialization (st : MountState) (rp : List String)
    (node : TreeInodeState) (tree : Option Tree) (hn : lookupA st rp = some node) :
    lookupA (saveOverlayPostCheckout false tree st rp).1 rp =
      some ⟨tryToDematerialize tree node.entries, node.entries⟩ ∧
    (∀ h, tryToDematerialize tree node.entries = some h ↔
      ∃ t, tree = some t ∧ t.hash = h ∧ h ≠ [] ∧
        t.entries.length = node.entries.length ∧
        ∀ pr ∈ List.zip t.entries node.entries, (pr.2.2).hash = some pr.1.hash) ∧
    (∀ m pp parent pe, rp = m :: pp → lookupA st pp = some parent →
      lookupA parent.entries m = some pe → node.treeHash ≠ none →
      tryToDematerialize tree node.entries = none →
      ∃ parent2 pe2,
        lookupA (saveOverlayPostCheckout false tree st rp).1 pp = some parent2 ∧
        parent2.treeHash = none ∧ lookupA parent2.entries m = some pe2 ∧
        pe2.hash = none) := by
  refine ⟨?_, ?_, ?_⟩
  · simp only [saveOverlayPostCheckout, Bool.false_eq_true, if_false, hn]
    by_cases hch : node.treeHash = tryToDematerialize tree node.entries
    · rw [if_pos hch]
      exact lookupA_setA_self _ hn
    · rw [if_neg hch]
      cases rp with
      | nil =>
        cases hnh : tryToDematerialize tree node.entries with
        | none =>
          dsimp only
          exact lookupA_setA_self _ hn
        | some h2 =>
          cases tree with
          | none => simp [tryToDematerialize] at hnh
          | some t =>
            dsimp only
            exact lookupA_setA_self _ hn
      | cons m pp =>
        cases hnh : tryToDematerialize tree node.entries with
        | none =>
          dsimp only
          rw [childMaterialized_frame pp _ m (m :: pp) (by simp)]
          exact lookupA_setA_self _ hn
        | some h2 =>
          cases tree with
          | none => simp [tryToDematerialize] at hnh
          | some t =>
            dsimp only
            rw [childDematerialized_frame pp _ m t.hash (m :: pp) (by simp)]
            exact lookupA_setA_self _ hn
  · intro h
    rw [tryToDematerialize_eq_some_iff]
    constructor
    · rintro ⟨t, ht, hth, hne, hlen, hchk⟩
      exact ⟨t, ht, hth, hne, hlen, ((demCheckEntries_iff_zip t.entries node.entries).mp
        hchk).2⟩
    · rintro ⟨t, ht, hth, hne, hlen, hzip⟩
      exact ⟨t, ht, hth, hne, hlen, (demCheckEntries_iff_zip t.entries node.entries).mpr
        ⟨hlen, hzip⟩⟩
  · rintro m pp parent pe rfl hp hpe hmat hdem
    simp only [saveOverlayPostCheckout, Bool.false_eq_true, if_false, hn]
    have hch : ¬(node.treeHash = tryToDematerialize tree node.entries) := by
      rw [hdem]
      exact hmat
    rw [if_neg hch, hdem]
    dsimp only
    have hp2 : lookupA (setA st (m :: pp) ⟨none, node.entries⟩) pp = some parent := by
      rw [lookupA_setA_ne st (m :: pp) pp _ (fun he => (List.cons_ne_self m pp) he.symm)]
      exact hp
    exact childMaterialized_notifies pp _ m parent pe hp2 hpe

/-- C2 counterexample: the claim says dematerialization requires the pairwise
check to match entry names and types; the code compares only ObjectIds.  Here
the local directory has entry "a" and the destination tree entry "b" (same
blob id), the spec's check fails, yet `saveOverlayPostCheckout`
dematerializes the inode to the destination hash. -/
theorem c2_counterexample :
    lookupA (saveOverlayPostCheckout false
        (some ⟨[7], [⟨"b", [1], TreeEntryType.REGULAR_FILE⟩]⟩)
        [([], ⟨none, [("a", ⟨TreeEntryType.REGULAR_FILE, 5, some [1], false⟩)]⟩)] []).1
        [] =
      some ⟨some [7], [("a", ⟨TreeEntryType.REGULAR_FILE, 5, some [1], false⟩)]⟩ ∧
    specDemCheck [⟨"b", [1], TreeEntryType.REGULAR_FILE⟩]
      [("a", ⟨TreeEntryType.REGULAR_FILE, 5, some [1], false⟩)] = false := by
  constructor <;> rfl

theorem c2_post_checkout_dematerialization_witness :
    lookupA (saveOverlayPostCheckout false
        (some ⟨[7], [⟨"b", [1], TreeEntryType.REGULAR_FILE⟩]⟩)
        [([], ⟨none, [("a", ⟨TreeEntryType.REGULAR_FILE, 5, some [1], false⟩)]⟩)] []).1
        [] =
      some ⟨some [7], [("a", ⟨TreeEntryType.REGULAR_FILE, 5, some [1], false⟩)]⟩ := by
  have h1 := (c2_post_checkout_dematerialization
    [([], ⟨none, [("a", ⟨TreeEntryType.REGULAR_FILE, 5, some [1], false⟩)]⟩)] []
    ⟨none, [("a", ⟨TreeEntryType.REGULAR_FILE, 5, some [1], false⟩)]⟩
    (some ⟨[7], [⟨"b", [1], TreeEntryType.REGULAR_FILE⟩]⟩) rfl).1
  rw [show tryToDematerialize (some ⟨[7], [⟨"b", [1], TreeEntryType.REGULAR_FILE⟩]⟩)
      [("a", ⟨TreeEntryType.REGULAR_FILE, 5, some [1], false⟩)] = some [7] from rfl] at h1
  exact h1

theorem sortIns_perm (e : String × DirEntry) (l : List (String × DirEntry)) :
    (sortIns e l).Perm (e :: l) := by
  induction l with
  | nil => rfl
  | cons f rest ih =>
    by_cases h : e.2.ino ≤ f.2.ino
    · simp [sortIns, h]
    · simp only [sortIns, h, if_false]
      exact (ih.cons f).trans (List.Perm.swap e f rest)

theorem sortByIno_perm (l : List (String × DirEntry)) : (sortByIno l).Perm l := by
  induction l with
  | nil => rfl
  | cons e rest ih =>
    exact (sortIns_perm e (sortByIno rest)).trans (ih.cons e)

theorem sortIns_pairwise (e : String × DirEntry) (l : List (String × DirEntry))
    (h : List.Pairwise (fun a b => a.2.ino ≤ b.2.ino) l) :
    List.Pairwise (fun a b => a.2.ino ≤ b.2.ino) (sortIns e l) := by
  induction l with
  | nil => simp [sortIns]
  | cons f rest ih =>
    rw [List.pairwise_cons] at h
    obtain ⟨hf, hrest⟩ := h
    by_cases hef : e.2.ino ≤ f.2.ino
    · simp only [sortIns, hef, if_true]
      rw [List.pairwise_cons]
      refine ⟨?_, List.pairwise_cons.mpr ⟨hf, hrest⟩⟩
      intro x hx
      rcases List.mem_cons.mp hx with hx | hx
      · subst hx
        exact hef
      · exact le_trans hef (hf x hx)
    · simp only [sortIns, hef, if_false]
      rw [List.pairwise_cons]
      refine ⟨?_, ih hrest⟩
      intro x hx
      rcases List.mem_cons.mp ((sortIns_perm e rest).mem_iff.mp hx) with hx | hx
      · subst hx
        omega
      · exact hf x hx

theorem sortByIno_pairwise (l : List (String × DirEntry)) :
    List.Pairwise (fun a b => a.2.ino ≤ b.2.ino) (sortByIno l) := by
  induction l with
  | nil => simp [sortByIno]
  | cons e rest ih => exact sortIns_pairwise e (sortByIno rest) ih

theorem sortByIno_pairwise_lt (l : List (String × DirEntry))
    (hnd : (l.map fun e => e.2.ino).Nodup) :
    List.Pairwise (fun a b => a.2.ino < b.2.ino) (sortByIno l) := by
  have hle := sortByIno_pairwise l
  have hnd2 : ((sortByIno l).map fun e => e.2.ino).Nodup :=
    (((sortByIno_perm l).map fun e => e.2.ino).nodup_iff).mpr hnd
  have hne : List.Pairwise (fun a b => a.2.ino ≠ b.2.ino) (sortByIno l) :=
    List.pairwise_map.mp hnd2
  exact (hle.and hne).imp fun h => lt_of_le_of_ne h.1 h.2

theorem readdirLoop_complete : ∀ (l : List (String × DirEntry)) (cap : Nat),
    l.length ≤ cap →
    readdirLoop cap l = (l.map fun e => (e.1, e.2.ino, e.2.ino + 2), true) := by
  intro l
  induction l with
  | nil =>
    intro cap _
    cases cap <;> rfl
  | cons e rest ih =>
    intro cap hcap
    cases cap with
    | zero => simp at hcap
    | succ c =>
      obtain ⟨n, de⟩ := e
      simp only [readdirLoop, List.map_cons]
      rw [ih c (by simpa using hcap)]

theorem readdirLoop_take : ∀ (l : List (String × DirEntry)) (cap : Nat),
    (readdirLoop cap l).1 = (l.map fun e => (e.1, e.2.ino, e.2.ino + 2)).take cap := by
  intro l
  induction l with
  | nil =>
    intro cap
    cases cap <;> rfl
  | cons e rest ih =>
    intro cap
    cases cap with
    | zero => rfl
    | succ c =>
      obtain ⟨n, de⟩ := e
      simp only [readdirLoop, List.map_cons, List.take_succ_cons]
      rw [ih c]

theorem readdirImpl_decomp (off cap selfIno parentIno : Nat)
    (entries : List (String × DirEntry)) :
    (readdirImpl off cap selfIno parentIno entries).1 =
      ((if off = 0 then [(".", selfIno, 1)] else []) ++
        (if off ≤ 1 then [("..", parentIno, 2)] else [])).take cap ++
      ((sortByIno (entries.filter fun e => decide (off < e.2.ino + 2))).map
        (fun e => (e.1, e.2.ino, e.2.ino + 2))).take
        (cap - ((if off = 0 then [(".", selfIno, 1)] else []) ++
          (if off ≤ 1 then [("..", parentIno, 2)] else [])).length) := by
  by_cases h0 : off = 0
  · subst h0
    simp only [readdirImpl, if_true, Nat.le_refl]
    cases cap with
    | zero => rfl
    | succ c0 =>
      cases c0 with
      | zero => rfl
      | succ c =>
        simp only []
        rw [readdirLoop_take]
        simp
  · by_cases h1 : off ≤ 1
    · simp only [readdirImpl, h0, if_false, h1, if_true]
      cases cap with
      | zero => rfl
      | succ c =>
        simp only []
        rw [readdirLoop_take]
        simp
    · simp only [readdirImpl, h0, if_false, h1]
      rw [readdirLoop_take]
      simp

theorem mem_readdirTail_iff (entries : List (String × DirEntry)) (off : Nat)
    (n : String) (i o : Nat) :
    (n, i, o) ∈ ((sortByIno (entries.filter fun e => decide (off < e.2.ino + 2))).map
      fun e => (e.1, e.2.ino, e.2.ino + 2)) ↔
    ∃ de, (n, de) ∈ entries ∧ de.ino = i ∧ o = i + 2 ∧ off < i + 2 := by
  rw [List.mem_map]
  constructor
  · rintro ⟨e, he, heq⟩
    have hm := (sortByIno_perm _).mem_iff.mp he
    rw [List.mem_filter] at hm
    obtain ⟨hmem, hoff⟩ := hm
    obtain ⟨e1, e2⟩ := e
    have hq1 : e1 = n := congrArg Prod.fst heq
    have hq2 : e2.ino = i := congrArg (fun pr => pr.2.1) heq
    have hq3 : e2.ino + 2 = o := congrArg (fun pr => pr.2.2) heq
    subst hq1
    subst hq2
    subst hq3
    refine ⟨e2, hmem, rfl, rfl, ?_⟩
    simpa using hoff
  · rintro ⟨de, hmem, rfl, rfl, hoff⟩
    refine ⟨(n, de), (sortByIno_perm _).mem_iff.mpr (List.mem_filter.mpr
      ⟨hmem, by simpa using hoff⟩), rfl⟩

theorem take_decomp_append {α : Type} (dots mp : List α) (cap big : Nat)
    (h1 : dots.length ≤ big) (h2 : mp.length ≤ big - dots.length) :
    ∃ t, dots.take big ++ mp.take (big - dots.length) =
      (dots.take cap ++ mp.take (cap - dots.length)) ++ t := by
  rw [List.take_of_length_le h1, List.take_of_length_le h2]
  by_cases hcap : dots.length ≤ cap
  · rw [List.take_of_length_le hcap]
    refine ⟨mp.drop (cap - dots.length), ?_⟩
    rw [List.append_assoc, List.take_append_drop]
  · refine ⟨dots.drop cap ++ mp, ?_⟩
    rw [show cap - dots.length = 0 from by omega, List.take_zero, List.append_nil,
      ← List.append_assoc, List.take_append_drop]

theorem truncated_no_skip {α : Type} (dots mpl : List (α × Nat × Nat)) (d : Nat)
    (fe : α × Nat × Nat)
    (hpair : List.Pairwise (fun a b => a.2.1 < b.2.1) mpl)
    (hform : ∀ x ∈ mpl, x.2.2 = x.2.1 + 2)
    (hdots : ∀ x ∈ dots, x.2.2 < fe.2.2)
    (hfe : fe ∈ mpl) (cap : Nat)
    (hnot : fe ∉ dots.take cap ++ mpl.take d) :
    ∀ x ∈ dots.take cap ++ mpl.take d, x.2.2 < fe.2.2 := by
  intro x hx
  have hfed : fe ∈ mpl.drop d := by
    have hfe2 : fe ∈ mpl.take d ++ mpl.drop d := by
      rw [List.take_append_drop]
      exact hfe
    rcases List.mem_append.mp hfe2 with hc | hc
    · exact (hnot (List.mem_append.mpr (Or.inr hc))).elim
    · exact hc
  rcases List.mem_append.mp hx with hx | hx
  · exact hdots x (List.mem_of_mem_take hx)
  · have hcross : x.2.1 < fe.2.1 := by
      have hp := hpair
      rw [← List.take_append_drop d mpl] at hp
      exact (List.pairwise_append.mp hp).2.2 x hx fe hfed
    have h1 := hform x (List.mem_of_mem_take hx)
    have h2 := hform fe hfe
    omega

/-- C8: `readdirImpl` offset behaviour.  With an unconstrained buffer a call at
offset `off` returns `.` with offset value 1 when `off = 0`, `..` with offset
value 2 when `off ≤ 1`, and then exactly those entries whose inode number plus
2 exceeds `off`, in strictly increasing inode order, each with offset value
`ino + 2`.  Consequently an entry handed out with offset value `ino + 2` is
never returned by a later call whose starting offset has reached that value
(no duplicates), a size-limited call returns a prefix of the unlimited
listing, and an eligible entry cut off by the buffer limit keeps every
returned offset value below its own, so resuming at the last returned offset
cannot skip it. -/
theorem c8_readdir_offsets (off selfIno parentIno : Nat)
    (entries : List (String × DirEntry))
    (hnd : (entries.map fun e => e.2.ino).Nodup) :
    (readdirImpl off (entries.length + 2) selfIno parentIno entries =
      ((if off = 0 then [(".", selfIno, 1)] else []) ++
        (if off ≤ 1 then [("..", parentIno, 2)] else []) ++
        (sortByIno (entries.filter fun e => decide (off < e.2.ino + 2))).map
          (fun e => (e.1, e.2.ino, e.2.ino + 2)), true)) ∧
    List.Pairwise (fun a b => a.2.1 < b.2.1)
      ((sortByIno (entries.filter fun e => decide (off < e.2.ino + 2))).map
        (fun e => (e.1, e.2.ino, e.2.ino + 2))) ∧
    (∀ (n : String) (i o : Nat), (n, i, o) ∈ (sortByIno (entries.filter fun e =>
        decide (off < e.2.ino + 2))).map (fun e => (e.1, e.2.ino, e.2.ino + 2)) ↔
      ∃ de, (n, de) ∈ entries ∧ de.ino = i ∧ o = i + 2 ∧ off < i + 2) ∧
    (∀ (entries2 : List (String × DirEntry)) (off2 : Nat) (n : String) (i o : Nat),
      i + 2 ≤ off2 →
      (n, i, o) ∉ (sortByIno (entries2.filter fun e =>
        decide (off2 < e.2.ino + 2))).map (fun e => (e.1, e.2.ino, e.2.ino + 2))) ∧
    (∀ cap, ∃ t, (readdirImpl off (entries.length + 2) selfIno parentIno entries).1 =
      (readdirImpl off cap selfIno parentIno entries).1 ++ t) ∧
    (∀ cap n de, (n, de) ∈ entries → off < de.ino + 2 → 1 ≤ de.ino →
      (n, de.ino, de.ino + 2) ∉ (readdirImpl off cap selfIno parentIno entries).1 →
      ∀ x ∈ (readdirImpl off cap selfIno parentIno entries).1, x.2.2 < de.ino + 2) := by
  have hpairlt : List.Pairwise (fun a b => a.2.ino < b.2.ino)
      (sortByIno (entries.filter fun e => decide (off < e.2.ino + 2))) := by
    refine sortByIno_pairwise_lt _ ?_
    exact ((List.filter_sublist entries).map (fun e => e.2.ino)).nodup hnd
  have hmaplt : List.Pairwise (fun a b => a.2.1 < b.2.1)
      ((sortByIno (entries.filter fun e => decide (off < e.2.ino + 2))).map
        (fun e => (e.1, e.2.ino, e.2.ino + 2))) := by
    rw [List.pairwise_map]
    exact hpairlt
  have hslen : (sortByIno (entries.filter fun e => decide (off < e.2.ino + 2))).length ≤
      entries.length := by
    rw [(sortByIno_perm _).length_eq]
    exact List.length_filter_le _ _
  refine ⟨?_, hmaplt, fun n i o => mem_readdirTail_iff entries off n i o, ?_, ?_, ?_⟩
  · -- unlimited-capacity characterization
    have hd := readdirImpl_decomp off (entries.length + 2) selfIno parentIno entries
    have hcomplete : (readdirImpl off (entries.length + 2) selfIno parentIno entries).2 =
        true := by
      by_cases h0 : off = 0
      · subst h0
        simp only [readdirImpl, if_true]
        rw [readdirLoop_complete _ _ hslen]
      · by_cases h1 : off ≤ 1
        · simp only [readdirImpl, h0, if_false, h1, if_true]
          rw [readdirLoop_complete _ _ (by omega)]
        · simp only [readdirImpl, h0, if_false, h1]
          rw [readdirLoop_complete _ _ (by omega)]
    have hlenmap : ((sortByIno (entries.filter fun e => decide (off < e.2.ino + 2))).map
        (fun e => (e.1, e.2.ino, e.2.ino + 2))).length ≤ entries.length := by
      rw [List.length_map]
      exact hslen
    have hdots : ((if off = 0 then [(".", selfIno, 1)] else []) ++
        (if off ≤ 1 then [("..", parentIno, 2)] else [])).length ≤ 2 := by
      by_cases h0 : off = 0 <;> by_cases h1 : off ≤ 1 <;> simp [h0, h1]
    rw [Prod.ext_iff]
    refine ⟨?_, hcomplete⟩
    rw [hd, List.take_of_length_le (by omega), List.take_of_length_le (by omega),
      List.append_assoc]
  · -- no duplicates: once handed out, a later call from that offset skips it
    intro entries2 off2 n i o hle hmem
    rw [mem_readdirTail_iff] at hmem
    obtain ⟨de, -, -, -, hoff⟩ := hmem
    omega
  · -- truncated call returns a prefix of the unlimited call
    intro cap
    rw [readdirImpl_decomp off cap selfIno parentIno entries,
      readdirImpl_decomp off (entries.length + 2) selfIno parentIno entries]
    have hmplen : ((sortByIno (entries.filter fun e => decide (off < e.2.ino + 2))).map
        (fun e => (e.1, e.2.ino, e.2.ino + 2))).length ≤ entries.length := by
      rw [List.length_map]
      exact hslen
    have hdlen : ((if off = 0 then [(".", selfIno, 1)] else []) ++
        (if off ≤ 1 then [("..", parentIno, 2)] else [])).length ≤ 2 := by
      by_cases h0 : off = 0 <;> by_cases h1 : off ≤ 1 <;> simp [h0, h1]
    exact take_decomp_append _ _ cap (entries.length + 2) (by omega) (by omega)
  · -- no skips: everything returned by a truncated call has a smaller offset
    -- value than any eligible entry the buffer limit cut off
    intro cap n de hmem hoff hino hnotin x hx
    rw [readdirImpl_decomp off cap selfIno parentIno entries] at hnotin hx
    refine truncated_no_skip _ _ _ (n, de.ino, de.ino + 2) hmaplt ?_ ?_ ?_ cap hnotin x hx
    · intro y hy
      rw [List.mem_map] at hy
      obtain ⟨e, -, he⟩ := hy
      rw [← he]
    · intro y hy
      rcases List.mem_append.mp hy with hy | hy
      · by_cases h0 : off = 0
        · rw [if_pos h0] at hy
          simp only [List.mem_singleton] at hy
          rw [hy]
          show (1 : Nat) < de.ino + 2
          omega
        · rw [if_neg h0] at hy
          simp at hy
      · by_cases h1 : off ≤ 1
        · rw [if_pos h1] at hy
          simp only [List.mem_singleton] at hy
          rw [hy]
          show (2 : Nat) < de.ino + 2
          omega
        · rw [if_neg h1] at hy
          simp at hy
    · rw [mem_readdirTail_iff]
      exact ⟨de, hmem, rfl, rfl, hoff⟩

theorem c8_readdir_offsets_witness :
    readdirImpl 0 4 1 1 [("a", ⟨TreeEntryType.REGULAR_FILE, 3, some [1], false⟩),
        ("b", ⟨TreeEntryType.REGULAR_FILE, 2, some [2], false⟩)] =
      ([(".", 1, 1), ("..", 1, 2), ("b", 2, 4), ("a", 3, 5)], true) := by
  have h := (c8_readdir_offsets 0 1 1
    [("a", ⟨TreeEntryType.REGULAR_FILE, 3, some [1], false⟩),
      ("b", ⟨TreeEntryType.REGULAR_FILE, 2, some [2], false⟩)] (by decide)).1
  exact h.trans (by rfl)

theorem forceUpdate_DRY_RUN (c : List (ConflictType × String)) (er : List String) :
    CheckoutCtx.forceUpdate ⟨CheckoutMode.DRY_RUN, c, er⟩ = false := rfl

theorem forceUpdate_NORMAL (c : List (ConflictType × String)) (er : List String) :
    CheckoutCtx.forceUpdate ⟨CheckoutMode.NORMAL, c, er⟩ = false := rfl

theorem forceUpdate_FORCE (c : List (ConflictType × String)) (er : List String) :
    CheckoutCtx.forceUpdate ⟨CheckoutMode.FORCE, c, er⟩ = true := rfl

theorem isDryRun_DRY_RUN (c : List (ConflictType × String)) (er : List String) :
    CheckoutCtx.isDryRun ⟨CheckoutMode.DRY_RUN, c, er⟩ = true := rfl

theorem isDryRun_NORMAL (c : List (ConflictType × String)) (er : List String) :
    CheckoutCtx.isDryRun ⟨CheckoutMode.NORMAL, c, er⟩ = false := rfl

theorem isDryRun_FORCE (c : List (ConflictType × String)) (er : List String) :
    CheckoutCtx.isDryRun ⟨CheckoutMode.FORCE, c, er⟩ = false := rfl

theorem checkoutUpdateEntry_conflict_mem (env : CheckoutEnv) (ctx : CheckoutCtx)
    (entries : List (String × DirEntry)) (nextIno : Nat) (name : String)
    (isTree newTree removeOk : Bool) (newScm : Option TreeEntry)
    (p : ConflictType × String) (hp : p ∈ ctx.conflicts) :
    p ∈ (checkoutUpdateEntry env ctx entries nextIno name isTree newTree removeOk
      newScm).ctx.conflicts := by
  unfold checkoutUpdateEntry
  cases isTree with
  | false =>
    by_cases h3 : ctx.isDryRun = true
    · simp [h3, hp]
    · simp only [Bool.not_false, if_true, h3, Bool.false_eq_true, if_false]
      cases hl : lookupA entries name with
      | none => simpa using hp
      | some e =>
        by_cases h4 : env.invalidationOk = true
        · simp only [h4, Bool.not_true, Bool.false_eq_true, if_false]
          cases newScm <;> simpa using hp
        · simp only [Bool.not_eq_true] at h4
          simp [h4, CheckoutCtx.addError, hp]
  | true =>
    cases newTree with
    | true => simpa using hp
    | false =>
      by_cases h3 : ctx.isDryRun = true
      · simp [h3, hp]
      · by_cases h4 : env.invalidationOk = true
        · cases removeOk with
          | false =>
            cases newScm with
            | none =>
              simp [h3, h4, CheckoutCtx.addConflict, List.mem_append, hp]
            | some n =>
              by_cases h6 : (lookupA entries n.name).isSome = true <;>
                simp [h3, h4, h6, CheckoutCtx.addConflict, CheckoutCtx.addError,
                  List.mem_append, hp]
          | true =>
            cases newScm with
            | none => simpa [h3, h4] using hp
            | some n =>
              by_cases h6 : (lookupA (eraseA entries name) n.name).isSome = true <;>
                simp [h3, h4, h6, CheckoutCtx.addError, hp]
        · simp only [Bool.not_eq_true] at h4
          simp [h3, h4, CheckoutCtx.addConflict, List.mem_append, hp]

/-- C4: per-entry conflict handling across the three checkout modes, both for
an entry `processCheckoutEntry` resolves inline and for a loaded or
materialized entry that defers to a `CheckoutAction` applied through
`checkoutUpdateEntry`.  Inline path: (1) the conflicts recorded in DryRun mode
are exactly those recorded in Normal mode on the same inputs; (2) DryRun
writes nothing: the directory contents and the inode allocator are untouched;
(3) in Normal mode a recorded conflict suppresses the destructive change: the
contents are left as they were; (4) in Force mode (with the channel
invalidation succeeding) a recorded conflict does not stop the update:
afterwards the entry holds exactly the destination source-control state — the
new entry when the destination has one, no entry otherwise.  Deferred path:
(5) in DryRun mode the action writes nothing, with or without a conflict and
for files and directories alike; (6) a detected conflict is recorded in every
mode; (7) in Normal mode the recorded conflict suppresses the change
entirely: only the conflict list grows; (8) in Force mode (invalidation
succeeding, loaded file present) the recorded conflict does not stop
`checkoutUpdateEntry`: the old entry is unlinked and replaced by exactly the
destination state; (9) the `DIRECTORY_NOT_EMPTY` exception: when
`tryRemoveChild` fails after the recursive unlink, the conflict is recorded
but the change is not applied — the directory's entry stays. -/
theorem c4_conflict_modes (env : CheckoutEnv) (entries : List (String × DirEntry))
    (nextIno : Nat) (oldScm newScm : Option TreeEntry) (c : List (ConflictType × String))
    (er : List String) (name : String) (ct : ConflictType)
    (isTree newTree removeOk : Bool) :
    ((processCheckoutEntry env ⟨CheckoutMode.DRY_RUN, c, er⟩ entries nextIno oldScm
        newScm).ctx.conflicts =
      (processCheckoutEntry env ⟨CheckoutMode.NORMAL, c, er⟩ entries nextIno oldScm
        newScm).ctx.conflicts) ∧
    ((processCheckoutEntry env ⟨CheckoutMode.DRY_RUN, c, er⟩ entries nextIno oldScm
        newScm).entries = entries ∧
      (processCheckoutEntry env ⟨CheckoutMode.DRY_RUN, c, er⟩ entries nextIno oldScm
        newScm).nextIno = nextIno) ∧
    ((processCheckoutEntry env ⟨CheckoutMode.NORMAL, c, er⟩ entries nextIno oldScm
        newScm).ctx.conflicts ≠ c →
      (processCheckoutEntry env ⟨CheckoutMode.NORMAL, c, er⟩ entries nextIno oldScm
        newScm).entries = entries) ∧
    (env.invalidationOk = true → (entries.map Prod.fst).Nodup →
      (∀ n, newScm = some n → n.name = checkoutEntryName oldScm newScm) →
      (processCheckoutEntry env ⟨CheckoutMode.FORCE, c, er⟩ entries nextIno oldScm
        newScm).ctx.conflicts ≠ c →
      (match newScm with
       | some n =>
         lookupA (processCheckoutEntry env ⟨CheckoutMode.FORCE, c, er⟩ entries nextIno
           oldScm newScm).entries n.name = some ⟨n.ty, nextIno, some n.hash, false⟩
       | none =>
         lookupA (processCheckoutEntry env ⟨CheckoutMode.FORCE, c, er⟩ entries nextIno
           oldScm newScm).entries (checkoutEntryName oldScm newScm) = none)) ∧
    (∀ conflict, (runCheckoutAction env ⟨CheckoutMode.DRY_RUN, c, er⟩ entries nextIno
        name conflict isTree newTree removeOk newScm).entries = entries ∧
      (runCheckoutAction env ⟨CheckoutMode.DRY_RUN, c, er⟩ entries nextIno
        name conflict isTree newTree removeOk newScm).nextIno = nextIno) ∧
    (∀ mode, (ct, name) ∈ (runCheckoutAction env ⟨mode, c, er⟩ entries nextIno
        name (some ct) isTree newTree removeOk newScm).ctx.conflicts) ∧
    (runCheckoutAction env ⟨CheckoutMode.NORMAL, c, er⟩ entries nextIno name (some ct)
        isTree newTree removeOk newScm =
      ⟨⟨CheckoutMode.NORMAL, c ++ [(ct, name)], er⟩, entries, nextIno,
        UpdateOutcome.noInvalidate⟩) ∧
    (env.invalidationOk = true → (entries.map Prod.fst).Nodup →
      (∀ n, newScm = some n → n.name = name) → (lookupA entries name).isSome = true →
      (match newScm with
       | some n =>
         lookupA (runCheckoutAction env ⟨CheckoutMode.FORCE, c, er⟩ entries nextIno
           name (some ct) false newTree removeOk newScm).entries n.name =
           some ⟨n.ty, nextIno, some n.hash, false⟩
       | none =>
         lookupA (runCheckoutAction env ⟨CheckoutMode.FORCE, c, er⟩ entries nextIno
           name (some ct) false newTree removeOk newScm).entries name = none)) ∧
    (env.invalidationOk = true → (∀ n, newScm = some n → n.name = name) →
      (lookupA entries name).isSome = true →
      (runCheckoutAction env ⟨CheckoutMode.FORCE, c, er⟩ entries nextIno name none
        true false false newScm).entries = entries ∧
      (ConflictType.DIRECTORY_NOT_EMPTY, name) ∈
        (runCheckoutAction env ⟨CheckoutMode.FORCE, c, er⟩ entries nextIno name none
          true false false newScm).ctx.conflicts) := by
  refine ⟨?_, ?_, ?_, ?_, ?_, ?_, ?_, ?_, ?_⟩
  · -- (1) DryRun and Normal record the same conflicts
    by_cases hs : sameScmEntry oldScm newScm = true
    · simp [processCheckoutEntry, forceUpdate_DRY_RUN, forceUpdate_NORMAL, hs]
    · simp only [processCheckoutEntry, forceUpdate_DRY_RUN, forceUpdate_NORMAL,
        isDryRun_DRY_RUN, isDryRun_NORMAL, hs, Bool.not_false, Bool.true_and,
        Bool.false_eq_true, if_false]
      cases hl : lookupA entries (checkoutEntryName oldScm newScm) with
      | none =>
        cases oldScm with
        | none =>
          cases newScm with
          | none => rfl
          | some n =>
            by_cases hinv : env.invalidationOk = true <;>
              simp [hinv, CheckoutCtx.addError]
        | some o =>
          cases newScm with
          | none => rfl
          | some n => rfl
      | some entry =>
        by_cases hld : entry.loaded = true
        · simp [hld]
        · simp only [hld, Bool.false_eq_true, if_false]
          by_cases hmat : (entry.hash.isNone || env.remembered entry.ino) = true
          · simp [hmat]
          · simp only [hmat, Bool.false_eq_true, if_false]
            cases oldScm with
            | none =>
              by_cases hdir : entry.isDirectory = true <;>
                simp [checkoutEntryConflict, hdir, forceUpdate_DRY_RUN,
                  forceUpdate_NORMAL, CheckoutCtx.addConflict]
            | some o =>
              by_cases hoh : entry.hash = some o.hash
              · by_cases hinv : env.invalidationOk = false
                · simp [hoh, applyCheckoutChange, isDryRun_DRY_RUN, isDryRun_NORMAL,
                    CheckoutCtx.addError, hinv]
                · cases newScm <;>
                    simp [hoh, applyCheckoutChange, isDryRun_DRY_RUN, isDryRun_NORMAL,
                      CheckoutCtx.addError, hinv]
              · simp only [hoh, if_false]
                by_cases hbij : env.bijectiveBlobIds = true
                · by_cases hdir : entry.isDirectory = true <;>
                    simp [hbij, hdir, checkoutEntryConflict, forceUpdate_DRY_RUN,
                      forceUpdate_NORMAL, CheckoutCtx.addConflict]
                · simp [hbij]
  · -- (2) DryRun never touches the contents or the allocator
    by_cases hs : sameScmEntry oldScm newScm = true
    · simp [processCheckoutEntry, forceUpdate_DRY_RUN, hs]
    · simp only [processCheckoutEntry, forceUpdate_DRY_RUN, isDryRun_DRY_RUN, hs,
        Bool.not_false, Bool.true_and, Bool.false_eq_true, if_false]
      cases hl : lookupA entries (checkoutEntryName oldScm newScm) with
      | none =>
        cases oldScm with
        | none =>
          cases newScm with
          | none => exact ⟨rfl, rfl⟩
          | some n => simp
        | some o =>
          cases newScm with
          | none => exact ⟨rfl, rfl⟩
          | some n => simp [forceUpdate_DRY_RUN, CheckoutCtx.addConflict]
      | some entry =>
        by_cases hld : entry.loaded = true
        · simp [hld]
        · simp only [hld, Bool.false_eq_true, if_false]
          by_cases hmat : (entry.hash.isNone || env.remembered entry.ino) = true
          · simp [hmat]
          · simp only [hmat, Bool.false_eq_true, if_false]
            cases oldScm with
            | none =>
              by_cases hdir : entry.isDirectory = true <;>
                simp [hdir, checkoutEntryConflict, forceUpdate_DRY_RUN,
                  applyCheckoutChange, isDryRun_DRY_RUN, CheckoutCtx.addConflict]
            | some o =>
              by_cases hoh : entry.hash = some o.hash
              · simp [hoh, applyCheckoutChange, isDryRun_DRY_RUN]
              · simp only [hoh, if_false]
                by_cases hbij : env.bijectiveBlobIds = true
                · by_cases hdir : entry.isDirectory = true <;>
                    simp [hbij, hdir, checkoutEntryConflict, forceUpdate_DRY_RUN,
                      applyCheckoutChange, isDryRun_DRY_RUN, CheckoutCtx.addConflict]
                · simp [hbij]
  · -- (3) Normal mode: a recorded conflict leaves the entry as it was
    intro hconf
    by_cases hs : sameScmEntry oldScm newScm = true
    · simp [processCheckoutEntry, forceUpdate_NORMAL, hs]
    · simp only [processCheckoutEntry, forceUpdate_NORMAL, isDryRun_NORMAL, hs,
        Bool.not_false, Bool.true_and, Bool.false_eq_true, if_false] at hconf ⊢
      cases hl : lookupA entries (checkoutEntryName oldScm newScm) with
      | none =>
        rw [hl] at hconf
        cases oldScm with
        | none =>
          cases newScm with
          | none => rfl
          | some n =>
            by_cases hinv : env.invalidationOk = true
            · simp [hinv, CheckoutCtx.addError] at hconf
            · simp [hinv, CheckoutCtx.addError]
        | some o =>
          cases newScm with
          | none => rfl
          | some n => rfl
      | some entry =>
        rw [hl] at hconf
        by_cases hld : entry.loaded = true
        · simp [hld]
        · simp only [hld, Bool.false_eq_true, if_false] at hconf ⊢
          by_cases hmat : (entry.hash.isNone || env.remembered entry.ino) = true
          · simp [hmat]
          · simp only [hmat, Bool.false_eq_true, if_false] at hconf ⊢
            cases oldScm with
            | none =>
              by_cases hdir : entry.isDirectory = true <;>
                simp [hdir, checkoutEntryConflict, forceUpdate_NORMAL,
                  CheckoutCtx.addConflict]
            | some o =>
              dsimp only at hconf ⊢
              by_cases hoh : entry.hash = some o.hash
              · exfalso
                rw [if_pos hoh] at hconf
                by_cases hinv : env.invalidationOk = false <;>
                  cases newScm <;>
                    simp [applyCheckoutChange, isDryRun_NORMAL, hinv,
                      CheckoutCtx.addError] at hconf
              · rw [if_neg hoh] at hconf ⊢
                by_cases hbij : env.bijectiveBlobIds = true
                · by_cases hdir : entry.isDirectory = true <;>
                    simp [hbij, hdir, checkoutEntryConflict, forceUpdate_NORMAL,
                      CheckoutCtx.addConflict]
                · simp [hbij]
  · -- (4) Force mode: the destination state is applied despite the conflict
    intro hinv hnd hname hconf
    simp only [processCheckoutEntry, forceUpdate_FORCE, isDryRun_FORCE,
      Bool.not_true, Bool.false_and, Bool.false_eq_true, if_false] at hconf ⊢
    cases hl : lookupA entries (checkoutEntryName oldScm newScm) with
    | none =>
      rw [hl] at hconf
      cases oldScm with
      | none =>
        cases newScm with
        | none => simp at hconf
        | some n => simp [hinv, CheckoutCtx.addError] at hconf
      | some o =>
        cases newScm with
        | none => exact hl
        | some n =>
          simp only [hinv, if_true]
          have hn : n.name = checkoutEntryName (some o) (some n) := hname n rfl
          rw [lookupA_insertEnt_absent]
          rw [hn]
          exact (lookupA_eq_none entries _).mp hl
    | some entry =>
      rw [hl] at hconf
      by_cases hld : entry.loaded = true
      · simp [hld] at hconf
      · simp only [hld, Bool.false_eq_true, if_false] at hconf ⊢
        by_cases hmat : (entry.hash.isNone || env.remembered entry.ino) = true
        · simp [hmat] at hconf
        · simp only [hmat, Bool.false_eq_true, if_false] at hconf ⊢
          cases oldScm with
          | none =>
            by_cases hdir : entry.isDirectory = true
            · simp [checkoutEntryConflict, hdir] at hconf
            · simp only [checkoutEntryConflict, hdir, Bool.false_eq_true, if_false,
                forceUpdate_FORCE, Bool.not_true, applyCheckoutChange,
                CheckoutCtx.addConflict, isDryRun_FORCE, hinv, Bool.not_false,
                if_true] at hconf ⊢
              cases newScm with
              | none => exact lookupA_eraseA_nodup hnd
              | some n =>
                have hn : n.name = checkoutEntryName none (some n) := hname n rfl
                dsimp only at hconf ⊢
                rw [hn]
                exact lookupA_insertEnt_absent _
                  ((lookupA_eq_none _ _).mp (lookupA_eraseA_nodup hnd))
          | some o =>
            by_cases hoh : entry.hash = some o.hash
            · exfalso
              cases newScm <;>
                simp [hoh, applyCheckoutChange, isDryRun_FORCE, hinv] at hconf
            · simp only [hoh, if_false] at hconf ⊢
              by_cases hbij : env.bijectiveBlobIds = true
              · by_cases hdir : entry.isDirectory = true
                · simp [hbij, checkoutEntryConflict, hdir] at hconf
                · simp only [hbij, if_true, checkoutEntryConflict, hdir,
                    Bool.false_eq_true, if_false, forceUpdate_FORCE, Bool.not_true,
                    applyCheckoutChange, CheckoutCtx.addConflict, isDryRun_FORCE,
                    hinv, Bool.not_false] at hconf ⊢
                  cases newScm with
                  | none => exact lookupA_eraseA_nodup hnd
                  | some n =>
                    have hn : n.name = checkoutEntryName (some o) (some n) :=
                      hname n rfl
                    dsimp only at hconf ⊢
                    rw [hn]
                    exact lookupA_insertEnt_absent _
                      ((lookupA_eq_none _ _).mp (lookupA_eraseA_nodup hnd))
              · simp [hbij] at hconf
  · -- (5) DryRun: the deferred action writes nothing
    intro conflict
    cases conflict with
    | some ct2 => simp [runCheckoutAction, forceUpdate_DRY_RUN]
    | none =>
      cases isTree <;> cases newTree <;>
        simp [runCheckoutAction, checkoutUpdateEntry, isDryRun_DRY_RUN]
  · -- (6) the conflict is recorded in every mode
    intro mode
    cases mode with
    | DRY_RUN => simp [runCheckoutAction, forceUpdate_DRY_RUN, CheckoutCtx.addConflict]
    | NORMAL => simp [runCheckoutAction, forceUpdate_NORMAL, CheckoutCtx.addConflict]
    | FORCE =>
      simp only [runCheckoutAction, forceUpdate_FORCE, if_true]
      refine checkoutUpdateEntry_conflict_mem env _ entries nextIno name isTree
        newTree removeOk newScm (ct, name) ?_
      simp [CheckoutCtx.addConflict]
  · -- (7) Normal: the conflict is recorded and nothing else changes
    simp [runCheckoutAction, forceUpdate_NORMAL, CheckoutCtx.addConflict]
  · -- (8) Force: the file entry is replaced by the destination state
    intro hinv hnd hname hpres
    obtain ⟨entry, hentry⟩ := Option.isSome_iff_exists.mp hpres
    simp only [runCheckoutAction, forceUpdate_FORCE, if_true, checkoutUpdateEntry,
      Bool.not_false, if_true, CheckoutCtx.addConflict, isDryRun_FORCE,
      Bool.false_eq_true, if_false, hentry, hinv, Bool.not_true]
    cases newScm with
    | none =>
      dsimp only
      exact lookupA_eraseA_nodup hnd
    | some n =>
      dsimp only
      have hn : n.name = name := hname n rfl
      rw [hn]
      refine lookupA_insertEnt_absent _ ?_
      exact (lookupA_eq_none _ _).mp (lookupA_eraseA_nodup hnd)
  · -- (9) Force, tryRemoveChild failure: conflict recorded, change not applied
    intro hinv hname hpres
    cases newScm with
    | none =>
      refine ⟨?_, ?_⟩ <;>
        simp [runCheckoutAction, checkoutUpdateEntry, isDryRun_FORCE, hinv,
          CheckoutCtx.addConflict]
    | some n =>
      have hn : n.name = name := hname n rfl
      have hsome : (lookupA entries n.name).isSome = true := by
        rw [hn]
        exact hpres
      refine ⟨?_, ?_⟩ <;>
        simp [runCheckoutAction, checkoutUpdateEntry, isDryRun_FORCE, hinv, hsome,
          CheckoutCtx.addConflict, CheckoutCtx.addError]

theorem c4_conflict_modes_witness :
    ((processCheckoutEntry ⟨fun _ => false, true, true⟩ ⟨CheckoutMode.NORMAL, [], []⟩
        [("f", ⟨TreeEntryType.REGULAR_FILE, 7, some [9], false⟩)] 100
        (some ⟨"f", [7], TreeEntryType.REGULAR_FILE⟩)
        (some ⟨"f", [8], TreeEntryType.REGULAR_FILE⟩)).entries =
      [("f", ⟨TreeEntryType.REGULAR_FILE, 7, some [9], false⟩)]) ∧
    lookupA (processCheckoutEntry ⟨fun _ => false, true, true⟩ ⟨CheckoutMode.FORCE, [], []⟩
        [("f", ⟨TreeEntryType.REGULAR_FILE, 7, some [9], false⟩)] 100
        (some ⟨"f", [7], TreeEntryType.REGULAR_FILE⟩)
        (some ⟨"f", [8], TreeEntryType.REGULAR_FILE⟩)).entries "f" =
      some ⟨TreeEntryType.REGULAR_FILE, 100, some [8], false⟩ ∧
    lookupA (runCheckoutAction ⟨fun _ => false, true, true⟩ ⟨CheckoutMode.FORCE, [], []⟩
        [("f", ⟨TreeEntryType.REGULAR_FILE, 7, some [9], false⟩)] 100 "f"
        (some ConflictType.MODIFIED_MODIFIED) false false false
        (some ⟨"f", [8], TreeEntryType.REGULAR_FILE⟩)).entries "f" =
      some ⟨TreeEntryType.REGULAR_FILE, 100, some [8], false⟩ ∧
    (runCheckoutAction ⟨fun _ => false, true, true⟩ ⟨CheckoutMode.FORCE, [], []⟩
        [("f", ⟨TreeEntryType.REGULAR_FILE, 7, some [9], false⟩)] 100 "f" none
        true false false (some ⟨"f", [8], TreeEntryType.REGULAR_FILE⟩)).entries =
      [("f", ⟨TreeEntryType.REGULAR_FILE, 7, some [9], false⟩)] ∧
    (ConflictType.DIRECTORY_NOT_EMPTY, "f") ∈
      (runCheckoutAction ⟨fun _ => false, true, true⟩ ⟨CheckoutMode.FORCE, [], []⟩
        [("f", ⟨TreeEntryType.REGULAR_FILE, 7, some [9], false⟩)] 100 "f" none
        true false false (some ⟨"f", [8], TreeEntryType.REGULAR_FILE⟩)).ctx.conflicts :=
  ⟨(c4_conflict_modes ⟨fun _ => false, true, true⟩
      [("f", ⟨TreeEntryType.REGULAR_FILE, 7, some [9], false⟩)] 100
      (some ⟨"f", [7], TreeEntryType.REGULAR_FILE⟩)
      (some ⟨"f", [8], TreeEntryType.REGULAR_FILE⟩) [] [] "f"
      ConflictType.MODIFIED_MODIFIED false false false).2.2.1 (by decide),
   (c4_conflict_modes ⟨fun _ => false, true, true⟩
      [("f", ⟨TreeEntryType.REGULAR_FILE, 7, some [9], false⟩)] 100
      (some ⟨"f", [7], TreeEntryType.REGULAR_FILE⟩)
      (some ⟨"f", [8], TreeEntryType.REGULAR_FILE⟩) [] [] "f"
      ConflictType.MODIFIED_MODIFIED false false false).2.2.2.1 rfl (by decide)
      (fun n h => by cases h; rfl) (by decide),
   (c4_conflict_modes ⟨fun _ => false, true, true⟩
      [("f", ⟨TreeEntryType.REGULAR_FILE, 7, some [9], false⟩)] 100
      (some ⟨"f", [7], TreeEntryType.REGULAR_FILE⟩)
      (some ⟨"f", [8], TreeEntryType.REGULAR_FILE⟩) [] [] "f"
      ConflictType.MODIFIED_MODIFIED false false false).2.2.2.2.2.2.2.1 rfl
      (by decide) (fun n h => by cases h; rfl) (by decide),
   (c4_conflict_modes ⟨fun _ => false, true, true⟩
      [("f", ⟨TreeEntryType.REGULAR_FILE, 7, some [9], false⟩)] 100
      (some ⟨"f", [7], TreeEntryType.REGULAR_FILE⟩)
      (some ⟨"f", [8], TreeEntryType.REGULAR_FILE⟩) [] [] "f"
      ConflictType.MODIFIED_MODIFIED false false false).2.2.2.2.2.2.2.2 rfl
      (fun n h => by cases h; rfl) (by decide)⟩

theorem wf_iff (st : MountState) :
    wfB st = true ↔
      (st.map Prod.fst).Nodup ∧ ∀ kv ∈ st, (kv.2.entries.map Prod.fst).Nodup := by
  simp only [wfB, Bool.and_eq_true, decide_eq_true_eq, List.all_eq_true]

theorem upwardClosed_iff (st : MountState) :
    upwardClosedB st = true ↔
      ∀ kv ∈ st, ∀ e ∈ kv.2.entries, e.2.hash = none → kv.2.treeHash = none := by
  simp only [upwardClosedB, List.all_eq_true, Bool.or_eq_true, Bool.not_eq_true',
    Option.isNone_iff_eq_none]
  constructor
  · intro h kv hkv e he hh
    rcases h kv hkv with h1 | h1
    · exfalso
      rw [List.any_eq_false] at h1
      exact h1 e he (by simp [hh])
    · exact h1
  · intro h kv hkv
    by_cases ha : (kv.2.entries.any fun e => e.2.hash.isNone) = true
    · rw [List.any_eq_true] at ha
      obtain ⟨e, he, hh⟩ := ha
      exact Or.inr (h kv hkv e he (Option.isNone_iff_eq_none.mp hh))
    · exact Or.inl (Bool.eq_false_iff.mpr ha)

theorem entrySync_iff (st : MountState) :
    entrySyncB st = true ↔
      ∀ kv ∈ st, ∀ e ∈ kv.2.entries, ∀ child, lookupA st (e.1 :: kv.1) = some child →
        child.treeHash = none → e.2.hash = none := by
  simp only [entrySyncB, List.all_eq_true]
  constructor
  · intro h kv hkv e he child hch hm
    have h1 := h kv hkv e he
    rw [hch] at h1
    dsimp only at h1
    rw [Bool.or_eq_true] at h1
    rcases h1 with h2 | h2
    · rw [hm] at h2
      simp at h2
    · exact Option.isNone_iff_eq_none.mp h2
  · intro h kv hkv e he
    cases hch : lookupA st (e.1 :: kv.1) with
    | none => rfl
    | some child =>
      by_cases hm : child.treeHash = none
      · simp [h kv hkv e he child hch hm]
      · simp [Option.isSome_iff_ne_none.mpr hm]

theorem entrySyncExcept_iff (st : MountState) (rp : List String) (n : String) :
    entrySyncExceptB st rp n = true ↔
      ∀ kv ∈ st, ∀ e ∈ kv.2.entries, ¬(kv.1 = rp ∧ e.1 = n) →
        ∀ child, lookupA st (e.1 :: kv.1) = some child →
          child.treeHash = none → e.2.hash = none := by
  simp only [entrySyncExceptB, List.all_eq_true, Bool.or_eq_true, decide_eq_true_eq]
  constructor
  · intro h kv hkv e he hexc child hch hm
    rcases h kv hkv e he with h1 | h1
    · exact absurd h1 hexc
    · rw [hch] at h1
      dsimp only at h1
      rw [Bool.or_eq_true] at h1
      rcases h1 with h2 | h2
      · rw [hm] at h2
        simp at h2
      · exact Option.isNone_iff_eq_none.mp h2
  · intro h kv hkv e he
    by_cases hexc : kv.1 = rp ∧ e.1 = n
    · exact Or.inl hexc
    · right
      cases hch : lookupA st (e.1 :: kv.1) with
      | none => rfl
      | some child =>
        by_cases hm : child.treeHash = none
        · simp [h kv hkv e he hexc child hch hm]
        · simp [Option.isSome_iff_ne_none.mpr hm]

theorem entrySyncExcept_of_entrySync (st : MountState) (rp : List String) (n : String)
    (h : entrySyncB st = true) : entrySyncExceptB st rp n = true := by
  rw [entrySyncExcept_iff]
  rw [entrySync_iff] at h
  intro kv hkv e he _ child hch hm
  exact h kv hkv e he child hch hm

theorem entrySync_of_except (st : MountState) (rp : List String) (n : String)
    (hex : entrySyncExceptB st rp n = true)
    (h : ∀ kv ∈ st, kv.1 = rp → ∀ e ∈ kv.2.entries, e.1 = n →
      ∀ child, lookupA st (n :: rp) = some child → child.treeHash = none →
        e.2.hash = none) :
    entrySyncB st = true := by
  rw [entrySync_iff]
  rw [entrySyncExcept_iff] at hex
  intro kv hkv e he child hch hm
  by_cases hexc : kv.1 = rp ∧ e.1 = n
  · refine h kv hkv hexc.1 e he hexc.2 child ?_ hm
    rw [← hexc.1, ← hexc.2]
    exact hch
  · exact hex kv hkv e he hexc child hch hm

theorem coherent_iff (st : MountState) :
    coherentB st = true ↔
      ∀ kv ∈ st, ∀ m pp, kv.1 = m :: pp →
        ∃ parent, lookupA st pp = some parent ∧
          ∃ pe, lookupA parent.entries m = some pe := by
  simp only [coherentB, List.all_eq_true]
  constructor
  · intro h kv hkv m pp hk
    have h1 := h kv hkv
    rw [hk] at h1
    dsimp only at h1
    cases hp : lookupA st pp with
    | none =>
      rw [hp] at h1
      simp at h1
    | some parent =>
      rw [hp] at h1
      dsimp only at h1
      obtain ⟨pe, hpe⟩ := Option.isSome_iff_exists.mp h1
      exact ⟨parent, rfl, pe, hpe⟩
  · intro h kv hkv
    cases hk : kv.1 with
    | nil => rfl
    | cons m pp =>
      obtain ⟨parent, hp, pe, hpe⟩ := h kv hkv m pp hk
      dsimp only
      rw [hp]
      dsimp only
      simp [hpe]

theorem lookupA_isSome_iff_mem {κ α : Type} [DecidableEq κ] (l : List (κ × α)) (k : κ) :
    (lookupA l k).isSome = true ↔ k ∈ l.map Prod.fst := by
  cases h : lookupA l k with
  | none =>
    simp only [Option.isSome_none, Bool.false_eq_true, false_iff]
    exact (lookupA_eq_none l k).mp h
  | some v =>
    simp only [Option.isSome_some, true_iff]
    exact mem_keys_of_lookupA h

theorem ancestors_materialized (rp : List String) : ∀ (st : MountState)
    (exr : List String) (exn : String), coherentB st = true → upwardClosedB st = true →
    entrySyncExceptB st exr exn = true → rp.length ≤ exr.length →
    ∀ node, lookupA st rp = some node → node.treeHash = none →
    ∀ q, q <:+ rp → ∃ nq, lookupA st q = some nq ∧ nq.treeHash = none := by
  induction rp with
  | nil =>
    intro st exr exn _ _ _ _ node hnode hm q hq
    rw [List.suffix_nil] at hq
    subst hq
    exact ⟨node, hnode, hm⟩
  | cons m pp ih =>
    intro st exr exn hco hup hsync hlen node hnode hm q hq
    rcases List.suffix_cons_iff.mp hq with hq1 | hq1
    · subst hq1
      exact ⟨node, hnode, hm⟩
    · obtain ⟨parent, hp, pe, hpe⟩ :=
        (coherent_iff st).mp hco (m :: pp, node) (mem_of_lookupA hnode) m pp rfl
      have hpehash : pe.hash = none := by
        refine (entrySyncExcept_iff st exr exn).mp hsync (pp, parent) (mem_of_lookupA hp)
          (m, pe) (mem_of_lookupA hpe) ?_ node hnode hm
        rintro ⟨hc1, -⟩
        have hle : pp.length = exr.length := congrArg List.length hc1
        simp only [List.length_cons] at hlen
        omega
      have hpm : parent.treeHash = none :=
        (upwardClosed_iff st).mp hup (pp, parent) (mem_of_lookupA hp) (m, pe)
          (mem_of_lookupA hpe) hpehash
      refine ih st exr exn hco hup hsync ?_ parent hp hpm q hq1
      simp only [List.length_cons] at hlen
      omega

theorem setNode_wf (st : MountState) (rp : List String) (node : TreeInodeState)
    (entries2 : List (String × DirEntry)) (hwf : wfB st = true)
    (hnode : lookupA st rp = some node)
    (hkeys : entries2.map Prod.fst = node.entries.map Prod.fst) :
    wfB (setA st rp ⟨none, entries2⟩) = true := by
  rw [wf_iff] at hwf ⊢
  refine ⟨by rw [keys_setA]; exact hwf.1, ?_⟩
  intro kv hkv
  rcases mem_setA hkv with h1 | h1
  · exact hwf.2 kv h1
  · rw [h1]
    dsimp only
    rw [hkeys]
    exact hwf.2 (rp, node) (mem_of_lookupA hnode)

theorem setNode_coherent (st : MountState) (rp : List String) (node : TreeInodeState)
    (entries2 : List (String × DirEntry)) (hco : coherentB st = true)
    (hnode : lookupA st rp = some node)
    (hkeys : entries2.map Prod.fst = node.entries.map Prod.fst) :
    coherentB (setA st rp ⟨none, entries2⟩) = true := by
  rw [coherent_iff] at hco ⊢
  intro kv hkv m pp hk
  have horig : ∃ parent, lookupA st pp = some parent ∧
      ∃ pe, lookupA parent.entries m = some pe := by
    rcases mem_setA hkv with h1 | h1
    · exact hco kv h1 m pp hk
    · refine hco (rp, node) (mem_of_lookupA hnode) m pp ?_
      rw [h1] at hk
      exact hk
  obtain ⟨parent, hp, pe, hpe⟩ := horig
  by_cases hpr : pp = rp
  · subst hpr
    refine ⟨⟨none, entries2⟩, lookupA_setA_self _ hp, ?_⟩
    have hpn : node = parent := by
      rw [hp] at hnode
      exact (Option.some.inj hnode).symm
    have hsm : (lookupA entries2 m).isSome = true := by
      rw [lookupA_isSome_iff_mem, hkeys, ← lookupA_isSome_iff_mem, hpn]
      simp [hpe]
    obtain ⟨pe2, hpe2⟩ := Option.isSome_iff_exists.mp hsm
    exact ⟨pe2, hpe2⟩
  · rw [lookupA_setA_ne st rp pp _ hpr]
    exact ⟨parent, hp, pe, hpe⟩

theorem setNode_upward (st : MountState) (rp : List String)
    (entries2 : List (String × DirEntry)) (hup : upwardClosedB st = true) :
    upwardClosedB (setA st rp ⟨none, entries2⟩) = true := by
  rw [upwardClosed_iff] at hup ⊢
  intro kv hkv e he hh
  rcases mem_setA hkv with h1 | h1
  · exact hup kv h1 e he hh
  · rw [h1]

theorem setNode_sync (st : MountState) (rp : List String) (node : TreeInodeState)
    (entries2 : List (String × DirEntry)) (P : String → Prop)
    (hnd : (st.map Prod.fst).Nodup) (hnode : lookupA st rp = some node)
    (hsyncP : ∀ kv ∈ st, ∀ e ∈ kv.2.entries, ¬(kv.1 = rp ∧ P e.1) →
      ∀ child, lookupA st (e.1 :: kv.1) = some child → child.treeHash = none →
        e.2.hash = none)
    (hEnt : ∀ e ∈ entries2, e.2.hash = none ∨ (e ∈ node.entries ∧ ¬ P e.1)) :
    ∀ kv ∈ setA st rp ⟨none, entries2⟩, ∀ e ∈ kv.2.entries, e.1 :: kv.1 ≠ rp →
      ∀ child, lookupA (setA st rp ⟨none, entries2⟩) (e.1 :: kv.1) = some child →
        child.treeHash = none → e.2.hash = none := by
  intro kv hkv e he hne child hch hm
  rw [lookupA_setA_ne st rp _ _ hne] at hch
  by_cases hk1 : kv.1 = rp
  · have hkv2 : kv = (rp, ⟨none, entries2⟩) := mem_setA_eq_nodup hnd hnode hkv hk1
    have he2 : e ∈ entries2 := by
      rw [hkv2] at he
      exact he
    rcases hEnt e he2 with h1 | ⟨hmem, hnP⟩
    · exact h1
    · refine hsyncP (rp, node) (mem_of_lookupA hnode) e hmem ?_ child ?_ hm
      · rintro ⟨-, hP⟩
        exact hnP hP
      · rw [← hk1]
        exact hch
  · exact hsyncP kv (mem_setA_of_ne hkv hk1) e he (fun hc => hk1 hc.1) child hch hm

theorem syncExcept_of_step (st2 : MountState) (m : String) (pp : List String)
    (h : ∀ kv ∈ st2, ∀ e ∈ kv.2.entries, e.1 :: kv.1 ≠ m :: pp →
      ∀ child, lookupA st2 (e.1 :: kv.1) = some child → child.treeHash = none →
        e.2.hash = none) :
    entrySyncExceptB st2 pp m = true := by
  rw [entrySyncExcept_iff]
  intro kv hkv e he hexc child hch hm
  refine h kv hkv e he ?_ child hch hm
  intro hc
  injection hc with hc1 hc2
  exact hexc ⟨hc2, hc1⟩

theorem sync_of_step_root (st2 : MountState)
    (h : ∀ kv ∈ st2, ∀ e ∈ kv.2.entries, e.1 :: kv.1 ≠ ([] : List String) →
      ∀ child, lookupA st2 (e.1 :: kv.1) = some child → child.treeHash = none →
        e.2.hash = none) :
    entrySyncB st2 = true := by
  rw [entrySync_iff]
  intro kv hkv e he child hch hm
  exact h kv hkv e he (by simp) child hch hm

theorem entry_eq_of_mem_nodup (st : MountState) (rp : List String) (n : String)
    (node : TreeInodeState) (ce : DirEntry) (hwf : wfB st = true)
    (hnode : lookupA st rp = some node) (hent : lookupA node.entries n = some ce) :
    ∀ kv ∈ st, kv.1 = rp → ∀ e ∈ kv.2.entries, e.1 = n → e.2 = ce := by
  intro kv hkv hk1 e he he1
  have hndk := ((wf_iff st).mp hwf).1
  have hkv2 : lookupA st kv.1 = some kv.2 := lookupA_of_mem_nodup hndk hkv
  rw [hk1, hnode] at hkv2
  have hnde : (kv.2.entries.map Prod.fst).Nodup := ((wf_iff st).mp hwf).2 kv hkv
  have he2 : lookupA kv.2.entries e.1 = some e.2 := lookupA_of_mem_nodup hnde he
  rw [he1, ← Option.some.inj hkv2] at he2
  rw [hent] at he2
  exact (Option.some.inj he2).symm

theorem sync_restore_noNode (st : MountState) (rp : List String) (n : String)
    (hsync : entrySyncExceptB st rp n = true) (hnode : lookupA st rp = none) :
    entrySyncB st = true := by
  refine entrySync_of_except st rp n hsync ?_
  intro kv hkv hk1 e he he1 child hch hm
  exfalso
  have hmem : rp ∈ st.map Prod.fst := by
    rw [← hk1]
    exact List.mem_map.mpr ⟨kv, hkv, rfl⟩
  exact (lookupA_eq_none st rp).mp hnode hmem

theorem sync_restore_noEntry (st : MountState) (rp : List String) (n : String)
    (node : TreeInodeState) (hwf : wfB st = true)
    (hsync : entrySyncExceptB st rp n = true) (hnode : lookupA st rp = some node)
    (hent : lookupA node.entries n = none) : entrySyncB st = true := by
  refine entrySync_of_except st rp n hsync ?_
  intro kv hkv hk1 e he he1 child hch hm
  exfalso
  have hndk := ((wf_iff st).mp hwf).1
  have hkv2 : lookupA st kv.1 = some kv.2 := lookupA_of_mem_nodup hndk hkv
  rw [hk1, hnode] at hkv2
  have hnde : (kv.2.entries.map Prod.fst).Nodup := ((wf_iff st).mp hwf).2 kv hkv
  have he2 : lookupA kv.2.entries e.1 = some e.2 := lookupA_of_mem_nodup hnde he
  rw [he1, ← Option.some.inj hkv2] at he2
  rw [hent] at he2
  exact absurd he2 (by simp)

theorem sync_restore_matEntry (st : MountState) (rp : List String) (n : String)
    (node : TreeInodeState) (ce : DirEntry) (hwf : wfB st = true)
    (hsync : entrySyncExceptB st rp n = true) (hnode : lookupA st rp = some node)
    (hent : lookupA node.entries n = some ce) (hce : ce.hash = none) :
    entrySyncB st = true := by
  refine entrySync_of_except st rp n hsync ?_
  intro kv hkv hk1 e he he1 child hch hm
  rw [entry_eq_of_mem_nodup st rp n node ce hwf hnode hent kv hkv hk1 e he he1]
  exact hce

theorem step_syncExcept (st : MountState) (rp : List String) (n : String)
    (node : TreeInodeState) (ce : DirEntry) (hwf : wfB st = true)
    (hsync : entrySyncExceptB st rp n = true) (hnode : lookupA st rp = some node)
    (hent : lookupA node.entries n = some ce) :
    ∀ kv ∈ setA st rp ⟨none, setA node.entries n { ce with hash := none }⟩,
      ∀ e ∈ kv.2.entries, e.1 :: kv.1 ≠ rp →
      ∀ child, lookupA (setA st rp ⟨none, setA node.entries n { ce with hash := none }⟩)
          (e.1 :: kv.1) = some child → child.treeHash = none → e.2.hash = none := by
  have hndk := ((wf_iff st).mp hwf).1
  have hend : (node.entries.map Prod.fst).Nodup :=
    ((wf_iff st).mp hwf).2 (rp, node) (mem_of_lookupA hnode)
  refine setNode_sync st rp node _ (fun x => x = n) hndk hnode ?_ ?_
  · exact fun kv hkv e he hexc => (entrySyncExcept_iff st rp n).mp hsync kv hkv e he hexc
  · intro e he
    by_cases hen : e.1 = n
    · left
      have h2 := mem_setA_eq_nodup hend hent he hen
      rw [h2]
    · exact Or.inr ⟨mem_setA_of_ne he hen, hen⟩

theorem materialize_syncStep (st : MountState) (rp : List String) (node : TreeInodeState)
    (hwf : wfB st = true) (hsync : entrySyncB st = true)
    (hnode : lookupA st rp = some node) :
    ∀ kv ∈ setA st rp ⟨none, node.entries⟩, ∀ e ∈ kv.2.entries, e.1 :: kv.1 ≠ rp →
      ∀ child, lookupA (setA st rp ⟨none, node.entries⟩) (e.1 :: kv.1) = some child →
        child.treeHash = none → e.2.hash = none := by
  have hndk := ((wf_iff st).mp hwf).1
  refine setNode_sync st rp node _ (fun _ => False) hndk hnode ?_ ?_
  · intro kv hkv e he _ child hch hm
    exact (entrySync_iff st).mp hsync kv hkv e he child hch hm
  · exact fun e he => Or.inr ⟨he, fun h => h⟩

theorem childMaterialized_main (rp : List String) : ∀ (st : MountState) (n : String),
    wfB st = true → coherentB st = true → upwardClosedB st = true →
    entrySyncExceptB st rp n = true →
    wfB (childMaterialized rp st n).1 = true ∧
    coherentB (childMaterialized rp st n).1 = true ∧
    upwardClosedB (childMaterialized rp st n).1 = true ∧
    entrySyncB (childMaterialized rp st n).1 = true ∧
    ∀ node ce, lookupA st rp = some node → lookupA node.entries n = some ce →
      ∀ q, q <:+ rp → ∃ nq, lookupA (childMaterialized rp st n).1 q = some nq ∧
        nq.treeHash = none := by
  induction rp with
  | nil =>
    intro st n hwf hco hup hsync
    rw [childMaterialized_nil]
    cases hnode : lookupA st [] with
    | none =>
      dsimp only
      refine ⟨hwf, hco, hup, sync_restore_noNode st [] n hsync hnode, ?_⟩
      intro node ce hn hce
      exact absurd hn (by simp)
    | some node =>
      dsimp only
      cases hent : lookupA node.entries n with
      | none =>
        dsimp only
        refine ⟨hwf, hco, hup,
          sync_restore_noEntry st [] n node hwf hsync hnode hent, ?_⟩
        intro node0 ce0 hn hce
        rw [← Option.some.inj hn] at hce
        rw [hent] at hce
        exact absurd hce (by simp)
      | some ce =>
        dsimp only
        by_cases hcond : node.treeHash = none ∧ ce.hash = none
        · rw [if_pos hcond]
          refine ⟨hwf, hco, hup,
            sync_restore_matEntry st [] n node ce hwf hsync hnode hent hcond.2, ?_⟩
          intro node0 ce0 hn hce q hq
          rw [List.suffix_nil] at hq
          subst hq
          exact ⟨node, hnode, hcond.1⟩
        · rw [if_neg hcond]
          dsimp only
          refine ⟨setNode_wf st [] node _ hwf hnode (keys_setA _ _ _),
            setNode_coherent st [] node _ hco hnode (keys_setA _ _ _),
            setNode_upward st [] _ hup,
            sync_of_step_root _ (step_syncExcept st [] n node ce hwf hsync hnode hent),
            ?_⟩
          intro node0 ce0 hn hce q hq
          rw [List.suffix_nil] at hq
          subst hq
          exact ⟨⟨none, setA node.entries n { ce with hash := none }⟩,
            lookupA_setA_self _ hnode, rfl⟩
  | cons m pp ih =>
    intro st n hwf hco hup hsync
    rw [childMaterialized_cons]
    cases hnode : lookupA st (m :: pp) with
    | none =>
      dsimp only
      refine ⟨hwf, hco, hup, sync_restore_noNode st (m :: pp) n hsync hnode, ?_⟩
      intro node ce hn hce
      exact absurd hn (by simp)
    | some node =>
      dsimp only
      cases hent : lookupA node.entries n with
      | none =>
        dsimp only
        refine ⟨hwf, hco, hup,
          sync_restore_noEntry st (m :: pp) n node hwf hsync hnode hent, ?_⟩
        intro node0 ce0 hn hce
        rw [← Option.some.inj hn] at hce
        rw [hent] at hce
        exact absurd hce (by simp)
      | some ce =>
        dsimp only
        by_cases hcond : node.treeHash = none ∧ ce.hash = none
        · rw [if_pos hcond]
          refine ⟨hwf, hco, hup,
            sync_restore_matEntry st (m :: pp) n node ce hwf hsync hnode hent
              hcond.2, ?_⟩
          intro node0 ce0 hn hce q hq
          exact ancestors_materialized (m :: pp) st (m :: pp) n hco hup hsync le_rfl
            node hnode hcond.1 q hq
        · rw [if_neg hcond]
          dsimp only
          have hwf2 : wfB (setA st (m :: pp)
              ⟨none, setA node.entries n { ce with hash := none }⟩) = true :=
            setNode_wf st (m :: pp) node _ hwf hnode (keys_setA _ _ _)
          have hco2 : coherentB (setA st (m :: pp)
              ⟨none, setA node.entries n { ce with hash := none }⟩) = true :=
            setNode_coherent st (m :: pp) node _ hco hnode (keys_setA _ _ _)
          have hup2 : upwardClosedB (setA st (m :: pp)
              ⟨none, setA node.entries n { ce with hash := none }⟩) = true :=
            setNode_upward st (m :: pp) _ hup
          have hsync2 : entrySyncExceptB (setA st (m :: pp)
              ⟨none, setA node.entries n { ce with hash := none }⟩) pp m = true :=
            syncExcept_of_step _ m pp
              (step_syncExcept st (m :: pp) n node ce hwf hsync hnode hent)
          obtain ⟨ihwf, ihco, ihup, ihsync, ihprop⟩ :=
            ih (setA st (m :: pp) ⟨none, setA node.entries n { ce with hash := none }⟩)
              m hwf2 hco2 hup2 hsync2
          refine ⟨ihwf, ihco, ihup, ihsync, ?_⟩
          intro node0 ce0 hn hce q hq
          rcases List.suffix_cons_iff.mp hq with hq1 | hq1
          · subst hq1
            refine ⟨⟨none, setA node.entries n { ce with hash := none }⟩, ?_, rfl⟩
            rw [childMaterialized_frame pp _ m (m :: pp) (by simp)]
            exact lookupA_setA_self _ hnode
          · obtain ⟨parent, hp, pe, hpe⟩ :=
              (coherent_iff st).mp hco (m :: pp, node) (mem_of_lookupA hnode) m pp rfl
            have hp2 : lookupA (setA st (m :: pp)
                ⟨none, setA node.entries n { ce with hash := none }⟩) pp =
                some parent := by
              rw [lookupA_setA_ne st (m :: pp) pp _ (Ne.symm (List.cons_ne_self m pp))]
              exact hp
            exact ihprop parent pe hp2 hpe q hq1

theorem materialize_main (st : MountState) (rp : List String)
    (hwf : wfB st = true) (hco : coherentB st = true) (hup : upwardClosedB st = true)
    (hsync : entrySyncB st = true) :
    wfB (materialize st rp).1 = true ∧ coherentB (materialize st rp).1 = true ∧
    upwardClosedB (materialize st rp).1 = true ∧
    entrySyncB (materialize st rp).1 = true ∧
    ∀ node, lookupA st rp = some node →
      ∀ q, q <:+ rp → ∃ nq, lookupA (materialize st rp).1 q = some nq ∧
        nq.treeHash = none := by
  cases hnode : lookupA st rp with
  | none =>
    simp only [materialize, hnode]
    refine ⟨hwf, hco, hup, hsync, ?_⟩
    intro node hn
    exact absurd hn (by simp)
  | some node =>
    by_cases hm : node.treeHash = none
    · have hres : materialize st rp = (st, []) := by
        unfold materialize
        rw [hnode]
        dsimp only
        rw [if_pos hm]
      rw [hres]
      refine ⟨hwf, hco, hup, hsync, ?_⟩
      intro node0 hn q hq
      exact ancestors_materialized rp st rp "" hco hup
        (entrySyncExcept_of_entrySync st rp "" hsync) le_rfl node hnode hm q hq
    · cases rp with
      | nil =>
        have hres : materialize st [] = (setA st [] ⟨none, node.entries⟩,
            [OverlayWrite.save [] node.entries]) := by
          unfold materialize
          rw [hnode]
          dsimp only
          rw [if_neg hm]
        rw [hres]
        dsimp only
        refine ⟨setNode_wf st [] node node.entries hwf hnode rfl,
          setNode_coherent st [] node node.entries hco hnode rfl,
          setNode_upward st [] node.entries hup,
          sync_of_step_root _ (materialize_syncStep st [] node hwf hsync hnode), ?_⟩
        intro node0 hn q hq
        rw [List.suffix_nil] at hq
        subst hq
        exact ⟨⟨none, node.entries⟩, lookupA_setA_self _ hnode, rfl⟩
      | cons m pp =>
        have hres : materialize st (m :: pp) =
            ((childMaterialized pp (setA st (m :: pp) ⟨none, node.entries⟩) m).1,
              OverlayWrite.save (m :: pp) node.entries ::
                (childMaterialized pp (setA st (m :: pp) ⟨none, node.entries⟩) m).2) := by
          unfold materialize
          rw [hnode]
          dsimp only
          rw [if_neg hm]
        rw [hres]
        dsimp only
        have hwf2 : wfB (setA st (m :: pp) ⟨none, node.entries⟩) = true :=
          setNode_wf st (m :: pp) node node.entries hwf hnode rfl
        have hco2 : coherentB (setA st (m :: pp) ⟨none, node.entries⟩) = true :=
          setNode_coherent st (m :: pp) node node.entries hco hnode rfl
        have hup2 : upwardClosedB (setA st (m :: pp) ⟨none, node.entries⟩) = true :=
          setNode_upward st (m :: pp) node.entries hup
        have hsync2 : entrySyncExceptB (setA st (m :: pp) ⟨none, node.entries⟩)
            pp m = true :=
          syncExcept_of_step _ m pp (materialize_syncStep st (m :: pp) node hwf
            hsync hnode)
        obtain ⟨ihwf, ihco, ihup, ihsync, ihprop⟩ :=
          childMaterialized_main pp (setA st (m :: pp) ⟨none, node.entries⟩) m
            hwf2 hco2 hup2 hsync2
        refine ⟨ihwf, ihco, ihup, ihsync, ?_⟩
        intro node0 hn q hq
        rcases List.suffix_cons_iff.mp hq with hq1 | hq1
        · subst hq1
          refine ⟨⟨none, node.entries⟩, ?_, rfl⟩
          rw [childMaterialized_frame pp _ m (m :: pp) (by simp)]
          exact lookupA_setA_self _ hnode
        · obtain ⟨parent, hp, pe, hpe⟩ :=
            (coherent_iff st).mp hco (m :: pp, node) (mem_of_lookupA hnode) m pp rfl
          have hp2 : lookupA (setA st (m :: pp) ⟨none, node.entries⟩) pp =
              some parent := by
            rw [lookupA_setA_ne st (m :: pp) pp _ (Ne.symm (List.cons_ne_self m pp))]
            exact hp
          exact ihprop parent pe hp2 hpe q hq1

/-- C1: materialization propagates upward.  On a well-formed, coherent mount
state satisfying the two spec invariants — upward closure (a TreeInode with a
materialized child entry is itself materialized) and parent/child entry sync —
both `TreeInode::materialize` and `TreeInode::childMaterialized` preserve all
four invariants, and after `materialize` of the inode at reversed path `rp`
(resp. after `childMaterialized` for an existing child entry `n`) every
ancestor up to the root — every suffix of `rp` — is materialized
(`treeHash = none`). -/
theorem c1_materialization_upward (st : MountState) (rp : List String) (n : String)
    (hwf : wfB st = true) (hco : coherentB st = true) (hup : upwardClosedB st = true)
    (hsync : entrySyncB st = true) :
    (upwardClosedB (materialize st rp).1 = true ∧
      entrySyncB (materialize st rp).1 = true ∧
      wfB (materialize st rp).1 = true ∧
      coherentB (materialize st rp).1 = true) ∧
    (∀ node, lookupA st rp = some node →
      ∀ q, q <:+ rp → ∃ nq, lookupA (materialize st rp).1 q = some nq ∧
        nq.treeHash = none) ∧
    (upwardClosedB (childMaterialized rp st n).1 = true ∧
      entrySyncB (childMaterialized rp st n).1 = true ∧
      wfB (childMaterialized rp st n).1 = true ∧
      coherentB (childMaterialized rp st n).1 = true) ∧
    (∀ node ce, lookupA st rp = some node → lookupA node.entries n = some ce →
      ∀ q, q <:+ rp → ∃ nq, lookupA (childMaterialized rp st n).1 q = some nq ∧
        nq.treeHash = none) := by
  obtain ⟨mwf, mco, mup, msync, mprop⟩ := materialize_main st rp hwf hco hup hsync
  obtain ⟨cwf, cco, cup, csync, cprop⟩ :=
    childMaterialized_main rp st n hwf hco hup
      (entrySyncExcept_of_entrySync st rp n hsync)
  exact ⟨⟨mup, msync, mwf, mco⟩, mprop, ⟨cup, csync, cwf, cco⟩, cprop⟩

theorem c1_materialization_upward_witness :
    entrySyncB (materialize
      [(([] : List String), ⟨some [1], [("a", ⟨TreeEntryType.TREE, 2, some [2], false⟩)]⟩),
       (["a"], ⟨some [2], []⟩)] ["a"]).1 = true ∧
    ∃ nq, lookupA (materialize
      [(([] : List String), ⟨some [1], [("a", ⟨TreeEntryType.TREE, 2, some [2], false⟩)]⟩),
       (["a"], ⟨some [2], []⟩)] ["a"]).1 [] = some nq ∧ nq.treeHash = none :=
  ⟨(c1_materialization_upward
      [(([] : List String), ⟨some [1], [("a", ⟨TreeEntryType.TREE, 2, some [2], false⟩)]⟩),
       (["a"], ⟨some [2], []⟩)] ["a"] "a"
      (by decide) (by decide) (by decide) (by decide)).1.2.1,
   (c1_materialization_upward
      [(([] : List String), ⟨some [1], [("a", ⟨TreeEntryType.TREE, 2, some [2], false⟩)]⟩),
       (["a"], ⟨some [2], []⟩)] ["a"] "a"
      (by decide) (by decide) (by decide) (by decide)).2.1
      ⟨some [2], []⟩ (by decide) [] ⟨["a"], rfl⟩⟩

end Eden
